import Mathlib

/-!
Verification of the news-track pipeline (`app/main.py`, `app/utils/deduplication.py`,
`app/config.py`) against its natural-language specification.

Shallow embedding conventions:
* Python strings are modelled as `List Char` (`Str`), restricted to the ASCII
  fragment where Python's Unicode behaviour matters (`str.lower`, percent
  decoding); every such restriction is noted at the definition it affects.
* Python floats are modelled as rationals (`ℚ`); the code only constructs
  ratios of small integers and compares them, so no rounding behaviour of
  IEEE 754 is observable in the modelled fragment.
* Fallible collaborators (database, HTTP collectors, LLM client, SMTP) are
  modelled as explicit `Except Unit`-valued fields of environment records; a
  `.error` value stands for the callee raising an arbitrary `Exception`.
* Stateful logging has no observable effect on any modelled result and is
  dropped.
-/

namespace NewsTrack

/-- Python strings, modelled as lists of characters. -/
abbrev Str := List Char

/-- Model of `str.lower` on a single character: the ASCII case table.
Python's `str.lower` is Unicode-aware; the modelled programs only rely on
ASCII case folding, which this table captures exactly. -/
def upperLowerTable : List (Char × Char) :=
  [('A', 'a'), ('B', 'b'), ('C', 'c'), ('D', 'd'), ('E', 'e'), ('F', 'f'),
   ('G', 'g'), ('H', 'h'), ('I', 'i'), ('J', 'j'), ('K', 'k'), ('L', 'l'),
   ('M', 'm'), ('N', 'n'), ('O', 'o'), ('P', 'p'), ('Q', 'q'), ('R', 'r'),
   ('S', 's'), ('T', 't'), ('U', 'u'), ('V', 'v'), ('W', 'w'), ('X', 'x'),
   ('Y', 'y'), ('Z', 'z')]

/-- ASCII lower-casing of one character (model of `str.lower`, per character). -/
def pyCharLower (c : Char) : Char :=
  match upperLowerTable.find? (fun p => p.1 = c) with
  | some p => p.2
  | none => c

/-- Model of `str.lower`. -/
def pyLower (s : Str) : Str := s.map pyCharLower

/-- The characters `str.strip()` removes (ASCII whitespace). -/
def pyIsSpace (c : Char) : Bool :=
  c = ' ' ∨ c = '\t' ∨ c = '\n' ∨ c = '\r' ∨ c = '\x0b' ∨ c = '\x0c'

/-- Model of `str.rstrip()` restricted to a character predicate. -/
def rstripP (p : Char → Bool) (s : Str) : Str :=
  (s.reverse.dropWhile p).reverse

/-- Model of `str.strip()` (no arguments: strip ASCII whitespace both ends). -/
def pyStrip (s : Str) : Str :=
  rstripP pyIsSpace (s.dropWhile pyIsSpace)

/-- Model of `str.rstrip('/')`, used on the URL path. -/
def rstripSlash (s : Str) : Str := rstripP (fun c => c = '/') s

/-- Split a list at the first occurrence of `c`: returns the part before and,
when `c` occurs, the part after it (model of `str.partition` / `str.split(c, 1)`). -/
def splitFirst (c : Char) : Str → Str × Option Str
  | [] => ([], none)
  | x :: xs =>
    if x = c then ([], some xs)
    else
      let r := splitFirst c xs
      (x :: r.1, r.2)

/-- Model of `str.split(sep)` for a one-character separator (Python semantics:
`n` separators produce `n+1` chunks; the empty string yields `[""]`). -/
def splitOnChar (c : Char) : Str → List Str
  | [] => [[]]
  | x :: xs =>
    if x = c then [] :: splitOnChar c xs
    else
      match splitOnChar c xs with
      | h :: t => (x :: h) :: t
      | [] => [[x]]

/-- Split at the last occurrence of `c` (model of `str.rfind` based splitting):
returns `(before, some after)` when `c` occurs. -/
def breakLast (c : Char) (s : Str) : Str × Option Str :=
  match splitFirst c s.reverse with
  | (revAfter, some revBefore) => (revBefore.reverse, some revAfter.reverse)
  | (_, none) => (s, none)

/-- Split at every character satisfying `p` (Python `str.split(sep)` semantics
generalised to a predicate: `n` separators yield `n+1` chunks). -/
def splitOnPred (p : Char → Bool) : Str → List Str
  | [] => [[]]
  | x :: xs =>
    if p x then [] :: splitOnPred p xs
    else
      match splitOnPred p xs with
      | h :: t => (x :: h) :: t
      | [] => [[x]]

/-- Model of no-argument `str.split()`: split on whitespace runs, dropping
empty chunks. -/
def splitWhite (s : Str) : List Str :=
  (splitOnPred pyIsSpace s).filter (fun w => w ≠ [])

/-! ## Model of `difflib.SequenceMatcher(None, a, b).ratio()`

`ArticleDeduplicator.calculate_content_similarity` and
`calculate_url_similarity` call the standard library's
`SequenceMatcher(None, a, b).ratio()`.  The model below specialises CPython's
`difflib` to that call site (`isjunk=None`, `autojunk=True`):

* `b2j`: positions of each character of `b`, minus "popular" characters
  (appearing more than `len(b)//100 + 1` times when `len(b) >= 200`) —
  CPython's autojunk heuristic.
* With `isjunk=None` the junk set `bjunk` is empty, so in
  `find_longest_match` the two `isbjunk(...)`-guarded extension loops never
  run and the `not isbjunk(...)` tests in the other two always pass; the
  model therefore keeps only the two live extension loops, with no junk test.
* `ratio()` sums the sizes of all matching blocks and returns
  `2*matches/(len(a)+len(b))` (or `1.0` when both inputs are empty); the
  float result is modelled as a rational.
-/

/-- Autojunk popularity test on elements of `b` (CPython `difflib`:
characters occurring more than `len(b)//100 + 1` times when `len(b) >= 200`). -/
def bPopular (b : Str) (c : Char) : Bool :=
  200 ≤ b.length ∧ b.length / 100 + 1 < b.count c

/-- `b2j[c]`: ascending positions of `c` in `b`, with popular characters
removed (they get an empty position list). -/
def b2j (b : Str) (c : Char) : List Nat :=
  if bPopular b c then []
  else (List.range b.length).filter (fun j => b.get? j = some c)

/-- State of `find_longest_match`: the current best block
`(besti, bestj, bestsize)`. -/
structure FLMState where
  besti : Nat
  bestj : Nat
  bestsize : Nat
deriving Repr, DecidableEq

/-- Inner loop of `find_longest_match` for one index `i` of `a`: walk the
ascending positions `js` of `a[i]` in `b`, building the new `j2len` row from
the previous one and updating the best block (`k > bestsize` is strict, so
the first longest block in scan order wins, as in CPython). -/
def flmRowStep (prevRow : Nat → Nat) (blo bhi i : Nat) (js : List Nat)
    (st : FLMState) : (Nat → Nat) × FLMState :=
  js.foldl
    (fun acc j =>
      if j < blo then acc
      else if bhi ≤ j then acc
      else
        let k := (if j = 0 then 0 else prevRow (j - 1)) + 1
        let row := fun j' => if j' = j then k else acc.1 j'
        let st' := if acc.2.bestsize < k then ⟨i + 1 - k, j + 1 - k, k⟩ else acc.2
        (row, st'))
    (fun _ => 0, st)

/-- Core dynamic program of `find_longest_match` over `a[alo:ahi]` and
`b[blo:bhi]`. -/
def flmCore (a b : Str) (alo ahi blo bhi : Nat) : FLMState :=
  (((List.range (ahi - alo)).map (· + alo)).foldl
    (fun (acc : (Nat → Nat) × FLMState) i =>
      let js := match a.get? i with
        | some c => b2j b c
        | none => []
      flmRowStep acc.1 blo bhi i js acc.2)
    (fun _ => 0, ⟨alo, blo, 0⟩)).2

/-- First extension loop of `find_longest_match`: grow the best block to the
left over equal characters (the `isbjunk` guard is vacuous for
`isjunk=None`).  `fuel` bounds the iteration count; indexing is guarded by
`Option` so out-of-range accesses (impossible in the source's invariant)
never extend. -/
def flmExtendLeft (a b : Str) (alo blo : Nat) : Nat → FLMState → FLMState
  | 0, st => st
  | fuel + 1, st =>
    if alo < st.besti ∧ blo < st.bestj ∧
       (a.get? (st.besti - 1)).isSome ∧
       a.get? (st.besti - 1) = b.get? (st.bestj - 1) then
      flmExtendLeft a b alo blo fuel ⟨st.besti - 1, st.bestj - 1, st.bestsize + 1⟩
    else st

/-- Second extension loop of `find_longest_match`: grow the best block to the
right over equal characters. -/
def flmExtendRight (a b : Str) (ahi bhi : Nat) : Nat → FLMState → FLMState
  | 0, st => st
  | fuel + 1, st =>
    if st.besti + st.bestsize < ahi ∧ st.bestj + st.bestsize < bhi ∧
       (a.get? (st.besti + st.bestsize)).isSome ∧
       a.get? (st.besti + st.bestsize) = b.get? (st.bestj + st.bestsize) then
      flmExtendRight a b ahi bhi fuel ⟨st.besti, st.bestj, st.bestsize + 1⟩
    else st

/-- `SequenceMatcher.find_longest_match` on `a[alo:ahi] × b[blo:bhi]`
(specialised to `isjunk=None`). -/
def find_longest_match (a b : Str) (alo ahi blo bhi : Nat) : FLMState :=
  let st := flmCore a b alo ahi blo bhi
  let st := flmExtendLeft a b alo blo (a.length + b.length + 1) st
  flmExtendRight a b ahi bhi (a.length + b.length + 1) st

/-- Total size of all matching blocks (the recursive content of
`get_matching_blocks`; only the sum of sizes is needed for `ratio`).
`fuel` dominates the recursion depth: each recursive interval is strictly
shorter in `a`, so `a.length + 1` suffices at top level. -/
def mbSum (a b : Str) : Nat → Nat → Nat → Nat → Nat → Nat
  | 0, _, _, _, _ => 0
  | fuel + 1, alo, ahi, blo, bhi =>
    let m := find_longest_match a b alo ahi blo bhi
    if m.bestsize = 0 then 0
    else
      mbSum a b fuel alo m.besti blo m.bestj + m.bestsize +
        mbSum a b fuel (m.besti + m.bestsize) ahi (m.bestj + m.bestsize) bhi

/-- `SequenceMatcher(None, a, b).ratio()`, as a rational:
`2*matches/(len(a)+len(b))`, and `1.0` when both are empty. -/
def smRatio (a b : Str) : ℚ :=
  let m := mbSum a b (a.length + 1) 0 a.length 0 b.length
  if a.length + b.length = 0 then 1
  else (2 * m : ℚ) / (a.length + b.length)

/-! ## `ArticleDeduplicator` content helpers (deduplication.py lines 73-106) -/

/-- The content normalisation shared by `calculate_content_hash` and
`calculate_content_similarity`: `' '.join(content.lower().strip().split())`. -/
def normalizeContent (c : Str) : Str :=
  List.intercalate [' '] (splitWhite (pyStrip (pyLower c)))

/-- `ArticleDeduplicator.calculate_content_hash` (deduplication.py 73-85).
The SHA-256 hex digest is abstracted as the normalised content itself: the
modelled code only ever compares digests for equality, and the abstraction
preserves digest equality for equal normalised contents (hash collisions are
ignored). -/
def calculate_content_hash (content : Str) : Str :=
  normalizeContent content

/-- `ArticleDeduplicator.calculate_content_similarity` (deduplication.py
87-106): `0.0` when either input is empty (Python truthiness), else the
`SequenceMatcher` ratio of the normalised contents. -/
def calculate_content_similarity (content1 content2 : Str) : ℚ :=
  if content1 = [] ∨ content2 = [] then 0
  else smRatio (normalizeContent content1) (normalizeContent content2)

/-! ## Model of the `urllib.parse` functions used by `normalize_url`

`ArticleDeduplicator.normalize_url` calls `urlparse`, `parse_qs`,
`urlencode(..., doseq=True)` and `urlunparse`.  The model below follows
CPython's `urllib.parse`, with the following documented restrictions:

* `str.lower` and percent decoding are modelled on the ASCII fragment:
  a `%XX` escape decodes to the character with code point `XX` (CPython
  decodes runs of escapes as UTF-8; the two agree for bytes below 0x80),
  and `quote_plus` encodes a character above 0x7F as the percent-escapes of
  its UTF-8 bytes, exactly as CPython does.
* The `ValueError` branches of `urlsplit` (unbalanced IPv6 brackets,
  non-NFKC netloc) are not modelled; no modelled theorem evaluates the
  function on such inputs (in the source these errors are caught by
  `normalize_url` and answered with `url.lower().strip()`).
-/

/-- ASCII letter test (model of `str.isalpha` restricted to ASCII, which is
all `urlsplit` accepts as the first scheme character). -/
def isAsciiAlpha (c : Char) : Bool :=
  (97 ≤ c.toNat ∧ c.toNat ≤ 122) ∨ (65 ≤ c.toNat ∧ c.toNat ≤ 90)

/-- ASCII digit test. -/
def isAsciiDigit (c : Char) : Bool := 48 ≤ c.toNat ∧ c.toNat ≤ 57

/-- The characters allowed in a URL scheme (`urllib.parse.scheme_chars`). -/
def isSchemeChar (c : Char) : Bool :=
  isAsciiAlpha c ∨ isAsciiDigit c ∨ c = '+' ∨ c = '-' ∨ c = '.'

/-- `urlsplit` strips leading and trailing C0-control-or-space characters. -/
def isC0OrSpace (c : Char) : Bool := c.toNat ≤ 0x20

/-- The result of `urlsplit`. -/
structure SplitResult where
  scheme : Str
  netloc : Str
  path : Str
  query : Str
  fragment : Str
deriving Repr, DecidableEq

/-- The result of `urlparse` (adds the `params` component). -/
structure ParseResult where
  scheme : Str
  netloc : Str
  path : Str
  params : Str
  query : Str
  fragment : Str
deriving Repr, DecidableEq

/-- `urllib.parse.urlsplit` (CPython): strip C0-control/space at both ends,
drop every tab/CR/LF, split off `scheme:` (first `:` with a valid non-empty
scheme before it), `//netloc` (up to the next `/`, `?` or `#`), the fragment
(at the first `#`) and the query (at the first `?`). -/
def urlsplit (url0 : Str) : SplitResult :=
  let u1 := rstripP isC0OrSpace (url0.dropWhile isC0OrSpace)
  let u2 := u1.filter (fun c => ¬(c = '\t' ∨ c = '\r' ∨ c = '\n'))
  let sr : Str × Str :=
    match splitFirst ':' u2 with
    | (pre, some post) =>
      if pre ≠ [] ∧ isAsciiAlpha (pre.headD ' ') ∧ pre.all isSchemeChar then
        (pyLower pre, post)
      else ([], u2)
    | (_, none) => ([], u2)
  let scheme := sr.1
  let rest := sr.2
  let nr : Str × Str :=
    if rest.take 2 = ['/', '/'] then
      let after := rest.drop 2
      (after.takeWhile (fun c => ¬(c = '/' ∨ c = '?' ∨ c = '#')),
       after.dropWhile (fun c => ¬(c = '/' ∨ c = '?' ∨ c = '#')))
    else ([], rest)
  let netloc := nr.1
  let fr : Str × Str :=
    match splitFirst '#' nr.2 with
    | (p, some f) => (p, f)
    | (p, none) => (p, [])
  let qr : Str × Str :=
    match splitFirst '?' fr.1 with
    | (p, some q) => (p, q)
    | (p, none) => (p, [])
  ⟨scheme, netloc, qr.1, qr.2, fr.2⟩

/-- The schemes for which `urlparse` splits `;params` off the path
(`urllib.parse.uses_params`). -/
def usesParams : List Str :=
  [[], "ftp".toList, "hdl".toList, "prospero".toList, "http".toList,
   "imap".toList, "https".toList, "shttp".toList, "rtsp".toList,
   "rtspu".toList, "sip".toList, "sips".toList, "mms".toList,
   "sftp".toList, "tel".toList]

/-- `urllib.parse._splitparams`: split the path at the first `;` of its last
segment (the first `;` at or after the last `/`; the whole string when there
is no `/`). -/
def splitparams (url : Str) : Str × Str :=
  match breakLast '/' url with
  | (before, some after) =>
    match splitFirst ';' after with
    | (p, some ps) => (before ++ '/' :: p, ps)
    | (_, none) => (url, [])
  | (_, none) =>
    match splitFirst ';' url with
    | (p, some ps) => (p, ps)
    | (_, none) => (url, [])

/-- `urllib.parse.urlparse`: `urlsplit` plus `params` extraction for schemes
in `uses_params`. -/
def urlparse (u : Str) : ParseResult :=
  let s := urlsplit u
  let pp : Str × Str :=
    if usesParams.contains s.scheme ∧ s.path.contains ';' then
      splitparams s.path
    else (s.path, [])
  ⟨s.scheme, s.netloc, pp.1, pp.2, s.query, s.fragment⟩

/-- Value of a hexadecimal digit, if any (both cases, as in CPython's
`unquote`). -/
def hexVal? (c : Char) : Option Nat :=
  if 48 ≤ c.toNat ∧ c.toNat ≤ 57 then some (c.toNat - 48)
  else if 97 ≤ c.toNat ∧ c.toNat ≤ 102 then some (c.toNat - 97 + 10)
  else if 65 ≤ c.toNat ∧ c.toNat ≤ 70 then some (c.toNat - 65 + 10)
  else none

/-- Percent decoding (model of `urllib.parse.unquote` on the ASCII fragment):
`%XY` with two hex digits becomes the character with code `16*X + Y`; an
invalid escape is left verbatim.  (CPython decodes runs of escaped bytes as
UTF-8 with `errors='replace'`; the two agree whenever every escaped byte is
below 0x80, which covers all modelled inputs.) -/
def unquote : Str → Str
  | [] => []
  | '%' :: a :: b :: rest =>
    match hexVal? a, hexVal? b with
    | some x, some y => Char.ofNat (16 * x + y) :: unquote rest
    | _, _ => '%' :: unquote (a :: b :: rest)
  | c :: rest => c :: unquote rest

/-- `str.replace('+', ' ')`, applied by `parse_qsl` to names and values
before unquoting. -/
def plusToSpace (s : Str) : Str :=
  s.map (fun c => if c = '+' then ' ' else c)

/-- `urllib.parse.parse_qsl(qs)` with all defaults
(`keep_blank_values=False`, `separator='&'`): split on `&`, drop empty
chunks, drop chunks with no `=` and chunks whose value is empty, and decode
`+` and percent-escapes in both name and value. -/
def parse_qsl (qs : Str) : List (Str × Str) :=
  (splitOnChar '&' qs).filterMap fun nv =>
    if nv = [] then none
    else
      match splitFirst '=' nv with
      | (_, none) => none
      | (name, some value) =>
        if value = [] then none
        else some (unquote (plusToSpace name), unquote (plusToSpace value))

/-- One step of `parse_qs`'s grouping loop: append the value to an existing
key's list, or append a new `(key, [value])` entry at the end. -/
def addPair (acc : List (Str × List Str)) (kv : Str × Str) :
    List (Str × List Str) :=
  if acc.any (fun p => p.1 = kv.1) then
    acc.map (fun p => if p.1 = kv.1 then (p.1, p.2 ++ [kv.2]) else p)
  else acc ++ [(kv.1, [kv.2])]

/-- `urllib.parse.parse_qs(qs)`: group the `parse_qsl` pairs by name, in
first-occurrence order (Python dict insertion order). -/
def parse_qs (qs : Str) : List (Str × List Str) :=
  (parse_qsl qs).foldl addPair []

/-- The characters `quote` never escapes (`urllib.parse._ALWAYS_SAFE`;
`urlencode` passes `safe=''`). -/
def isAlwaysSafe (c : Char) : Bool :=
  isAsciiAlpha c ∨ isAsciiDigit c ∨ c = '_' ∨ c = '.' ∨ c = '-' ∨ c = '~'

/-- Upper-case hexadecimal digit, as produced by CPython's `quote`. -/
def hexDigitUpper (n : Nat) : Char :=
  (['0', '1', '2', '3', '4', '5', '6', '7', '8', '9',
    'A', 'B', 'C', 'D', 'E', 'F']).getD n '0'

/-- The UTF-8 bytes of a character (CPython encodes non-ASCII characters to
UTF-8 before percent-escaping). -/
def utf8Bytes (c : Char) : List Nat :=
  let n := c.toNat
  if n < 0x80 then [n]
  else if n < 0x800 then [0xC0 + n / 64, 0x80 + n % 64]
  else if n < 0x10000 then [0xE0 + n / 4096, 0x80 + n / 64 % 64, 0x80 + n % 64]
  else [0xF0 + n / 262144, 0x80 + n / 4096 % 64, 0x80 + n / 64 % 64, 0x80 + n % 64]

/-- `%XX` escape of one byte, upper-case hex. -/
def pctEncodeByte (n : Nat) : Str :=
  ['%', hexDigitUpper (n / 16 % 16), hexDigitUpper (n % 16)]

/-- `urllib.parse.quote_plus(s, safe='')`: safe characters pass through,
a space becomes `+`, everything else becomes the `%XX` escapes of its UTF-8
bytes. -/
def quotePlus (s : Str) : Str :=
  (s.map (fun c =>
    if isAlwaysSafe c then [c]
    else if c = ' ' then ['+']
    else (utf8Bytes c).map pctEncodeByte |>.flatten)).flatten

/-- `urllib.parse.urlencode(d, doseq=True)` on a grouped query dictionary:
one `quote_plus(k)=quote_plus(v)` field per value, keys in dictionary order,
joined with `&`. -/
def urlencode (l : List (Str × List Str)) : Str :=
  List.intercalate ['&']
    ((l.map (fun kv => kv.2.map (fun v => quotePlus kv.1 ++ '=' :: quotePlus v))).flatten)

/-- `urllib.parse.urlunsplit`. -/
def urlunsplit (scheme netloc path query fragment : Str) : Str :=
  let u1 :=
    if netloc ≠ [] ∨ path.take 2 = ['/', '/'] then
      ['/', '/'] ++ netloc ++
        (if path ≠ [] ∧ path.take 1 ≠ ['/'] then '/' :: path else path)
    else path
  let u2 := if scheme ≠ [] then scheme ++ ':' :: u1 else u1
  let u3 := if query ≠ [] then u2 ++ '?' :: query else u2
  if fragment ≠ [] then u3 ++ '#' :: fragment else u3

/-- `urllib.parse.urlunparse`: reattach `;params` to the path, then
`urlunsplit`. -/
def urlunparse (scheme netloc path params query fragment : Str) : Str :=
  let p := if params ≠ [] then path ++ ';' :: params else path
  urlunsplit scheme netloc p query fragment

/-! ## `ArticleDeduplicator.normalize_url` and URL similarity
(deduplication.py lines 30-71 and 108-128) -/

/-- The deny-list of tracking query parameters (deduplication.py 44-47). -/
def trackingParams : List Str :=
  ["utm_source".toList, "utm_medium".toList, "utm_campaign".toList,
   "utm_term".toList, "utm_content".toList, "fbclid".toList, "gclid".toList,
   "ref".toList, "source".toList, "from".toList, "_t".toList, "share".toList]

/-- The query-dictionary filter of `normalize_url` (deduplication.py 49-53):
keep the parameters whose lower-cased name is not deny-listed. -/
def filteredParams (query : Str) : List (Str × List Str) :=
  (parse_qs query).filter (fun kv => ¬ trackingParams.contains (pyLower kv.1))

/-- `ArticleDeduplicator.normalize_url` (deduplication.py 30-71):
lower-case and strip the URL, parse it, drop deny-listed query parameters,
re-encode the rest, strip trailing `/` from the path and drop the fragment.
The `except` fallback (`url.lower().strip()`) is unreachable in the model:
the modelled `urlparse` never raises (see the `urllib` section header). -/
def normalize_url (url : Str) : Str :=
  let parsed := urlparse (pyStrip (pyLower url))
  let new_query := urlencode (filteredParams parsed.query)
  urlunparse parsed.scheme parsed.netloc (rstripSlash parsed.path)
    parsed.params new_query []

/-- `ArticleDeduplicator.calculate_url_similarity` (deduplication.py
108-128): `0.0` when either URL is empty, `1.0` when the normalised URLs
coincide, else the `SequenceMatcher` ratio of the normalised URLs. -/
def calculate_url_similarity (url1 url2 : Str) : ℚ :=
  if url1 = [] ∨ url2 = [] then 0
  else
    let n1 := normalize_url url1
    let n2 := normalize_url url2
    if n1 = n2 then 1
    else smRatio n1 n2

/-! ## Data model (app/models/__init__.py)

Only the fields consumed by the modelled code are carried (ids and
timestamps are generated metadata that no modelled claim touches). -/

/-- `app.models.Article` (the fields the modelled pipeline reads). -/
structure Article where
  title : Str
  url : Str
  content : Str
  source : Str
deriving Repr, DecidableEq

/-- `app.models.ProcessedArticle` (the fields the modelled pipeline reads). -/
structure ProcessedArticle where
  original_article : Article
  summary : Str
deriving Repr, DecidableEq

/-- `app.models.Digest`. -/
structure Digest where
  title : Str
  articles : List ProcessedArticle
  overall_summary : Option Str
deriving Repr, DecidableEq

/-! ## Configuration (app/config.py) -/

/-- `app.config.DeduplicationConfig` (config.py lines 11-16), with its
defaults.  Its comment documents `load_existing_days` as "Days to look back
for existing articles". -/
structure DeduplicationConfig where
  enabled : Bool := true
  url_similarity_threshold : ℚ := 95 / 100
  content_similarity_threshold : ℚ := 85 / 100
  load_existing_days : Nat := 7
deriving Repr, DecidableEq

/-! ## Database-facing deduplication (deduplication.py lines 130-254)

The history backend (`app.db.services.ArticleService` over SQLAlchemy) and
the `settings.database.enabled` flag are modelled as an explicit environment:
`checkUrl u` stands for `ArticleService.check_article_exists_by_url(u)`
(truthiness of the returned row) and `getRecent d l` for
`ArticleService.get_recent_articles(days=d, limit=l)`.  An `.error` result
stands for the call raising. -/

/-- A historical article row, as consumed by the content check (only
`content` and `title` are read). -/
structure DbArticle where
  title : Str
  content : Str
deriving Repr, DecidableEq

/-- The deduplicator's external world: the `settings.database.enabled` flag
and the two `ArticleService` queries it performs. -/
structure HistoryEnv where
  dbEnabled : Bool
  checkUrl : Str → Except Unit Bool
  getRecent : Nat → Nat → Except Unit (List DbArticle)

/-- `ArticleDeduplicator` instance state: the two thresholds set in
`__init__` (deduplication.py 19-28).  `get_deduplicator()` constructs it
with the default arguments `0.95` and `0.85`. -/
structure Dedup where
  url_similarity_threshold : ℚ := 95 / 100
  content_similarity_threshold : ℚ := 85 / 100

/-- `ArticleDeduplicator.is_duplicate_by_url` (deduplication.py 130-164).
Any exception from a database query is caught and answered with
`(False, "Database check failed")`; a disabled database yields
`(False, "Database not enabled")`. -/
def is_duplicate_by_url (env : HistoryEnv) (article : Article) : Bool × Str :=
  if ¬ env.dbEnabled then (false, "Database not enabled".toList)
  else
    let normalized_url := normalize_url article.url
    match env.checkUrl article.url with
    | .error _ => (false, "Database check failed".toList)
    | .ok true => (true, "Exact URL match in database: ".toList ++ article.url)
    | .ok false =>
      if article.url ≠ normalized_url then
        match env.checkUrl normalized_url with
        | .error _ => (false, "Database check failed".toList)
        | .ok true =>
          (true, "Normalized URL match in database: ".toList ++ normalized_url)
        | .ok false => (false, [])
      else (false, [])

/-- The scan over recent articles inside `is_duplicate_by_content`
(deduplication.py 189-198): first article with an equal content hash or a
similarity at or above the threshold wins.  The numeric similarity figure
interpolated into the reason string (`{similarity:.2f}`) is elided as `...`;
no modelled claim inspects it. -/
def contentScan (d : Dedup) (h : Str) (content : Str) :
    List DbArticle → Bool × Str
  | [] => (false, [])
  | r :: rs =>
    if calculate_content_hash r.content = h then
      (true, "Exact content match in database (hash: ".toList ++
        h.take 8 ++ "...)".toList)
    else if d.content_similarity_threshold ≤
        calculate_content_similarity content r.content then
      (true, "Similar content in database (similarity: ...) to: ".toList ++
        r.title.take 50 ++ "...".toList)
    else contentScan d h content rs

/-- `ArticleDeduplicator.is_duplicate_by_content` (deduplication.py
166-204), instrumented: the second component records every
`get_recent_articles(days, limit)` call made.  The source passes the
literals `days=7, limit=1000` (line 184). -/
def is_duplicate_by_contentT (d : Dedup) (env : HistoryEnv)
    (article : Article) : (Bool × Str) × List (Nat × Nat) :=
  if ¬ env.dbEnabled then ((false, "Database not enabled".toList), [])
  else
    match env.getRecent 7 1000 with
    | .error _ => ((false, "Database check failed".toList), [(7, 1000)])
    | .ok recents =>
      (contentScan d (calculate_content_hash article.content)
        article.content recents, [(7, 1000)])

/-- `ArticleDeduplicator.is_duplicate_by_content`, result only. -/
def is_duplicate_by_content (d : Dedup) (env : HistoryEnv)
    (article : Article) : Bool × Str :=
  (is_duplicate_by_contentT d env article).1

/-- `ArticleDeduplicator.is_duplicate` (deduplication.py 206-226): URL check
first, then content check; a non-duplicate answers `(False, "")`,
discarding the sub-checks' reasons. -/
def is_duplicate (d : Dedup) (env : HistoryEnv) (article : Article) :
    Bool × Str :=
  let u := is_duplicate_by_url env article
  if u.1 then (true, "URL duplicate: ".toList ++ u.2)
  else
    let c := is_duplicate_by_content d env article
    if c.1 then (true, "Content duplicate: ".toList ++ c.2)
    else (false, [])

/-- `ArticleDeduplicator.deduplicate_articles` (deduplication.py 228-254):
keep, in input order, the articles `is_duplicate` classifies as unique. -/
def deduplicate_articles (d : Dedup) (env : HistoryEnv)
    (articles : List Article) : List Article :=
  articles.foldl
    (fun unique_articles article =>
      if (is_duplicate d env article).1 then unique_articles
      else unique_articles ++ [article])
    []

/-! ## Orchestrator (app/main.py lines 56-262)

The collaborators of `process_articles` and `run_pipeline` (LLM processor,
database services, e-mail notifier, the three collectors) are modelled as an
environment of `Except`-valued operations; `.error` stands for the call
raising.  Database saves (`save_processed_article`, `save_digest`,
`init_db`) have their exceptions caught and logged at the call site
(main.py 84-89, 118-124, 156-163) and influence no modelled result; they are
carried in the environment for completeness but never consulted. -/

/-- The collaborators of `process_articles`. -/
structure ProcEnv where
  initProcessor : Except Unit Unit
  processArticle : Article → Except Unit ProcessedArticle
  summarizeArticles : List Article → Except Unit Str
  saveProcessed : ProcessedArticle → Except Unit Unit
  saveDigest : Digest → Except Unit Unit
  sendDigest : Digest → Except Unit Unit

/-- The configuration fields `run_pipeline` and `process_articles` read
(`app.config.settings`). -/
structure AppSettings where
  app_name : Str
  nowStamp : Str
  databaseEnabled : Bool
  emailPresent : Bool
  huatuEnabled : Bool
  topic : Option Str
  rss_feed_urls : Option (List Str)
  rss_feed_url : Option Str
  dedupEnabled : Bool

/-- The per-article processing loop of `process_articles` (main.py 75-92):
a per-article exception drops that article and continues; the database save
of a processed article is attempted with its exception swallowed. -/
def processLoop (env : ProcEnv) (articles : List Article) :
    List ProcessedArticle :=
  articles.foldl
    (fun acc a =>
      match env.processArticle a with
      | .ok p => acc ++ [p]
      | .error _ => acc)
    []

/-- `process_articles` (main.py 56-138), instrumented: the second component
records whether `summarize_articles` was invoked.  The body sits in a
`try/except` that answers any escaped exception with `return None`, so the
modelled result is always `.ok`; the result type still admits `.error` so
that propagation claims are statable. -/
def process_articlesT (env : ProcEnv) (s : AppSettings)
    (articles : List Article) : Except Unit (Option Digest) × Bool :=
  if articles = [] then (.ok none, false)
  else
    match env.initProcessor with
    | .error _ => (.ok none, false)
    | .ok _ =>
      let processed := processLoop env articles
      if processed = [] then (.ok none, false)
      else
        let baseTitle := s.app_name ++ " - ".toList ++ s.nowStamp
        let summarizeCalled := decide (1 < articles.length)
        let overall : Option Str :=
          if 1 < articles.length then
            match env.summarizeArticles articles with
            | .ok t => some t
            | .error _ => none
          else none
        let title :=
          match overall with
          | some t =>
            if t ≠ [] then
              s.app_name ++ " - 广东考公汇总 - ".toList ++ s.nowStamp
            else baseTitle
          | none => baseTitle
        let digest : Digest := ⟨title, processed, overall⟩
        let notify : Except Unit Unit :=
          if s.emailPresent then
            match env.sendDigest digest with
            | .ok _ => .ok ()
            | .error _ => .ok ()
          else .ok ()
        match notify with
        | .ok _ => (.ok (some digest), summarizeCalled)
        | .error e => (.error e, summarizeCalled)

/-- `process_articles`, result only. -/
def process_articles (env : ProcEnv) (s : AppSettings)
    (articles : List Article) : Except Unit (Option Digest) :=
  (process_articlesT env s articles).1

/-- The three collection strategies of `run_pipeline`. -/
inductive Collector
  | huatu
  | google
  | rss
deriving Repr, DecidableEq

/-- The collaborators of `run_pipeline`: the `process_articles`
environment, the deduplicator and its history backend, and the three
collectors' `fetch_articles`/`collect` results. -/
structure PipeEnv where
  proc : ProcEnv
  dedup : Dedup
  hist : HistoryEnv
  huatuFetch : Except Unit (List Article)
  googleFetch : Except Unit (List Article)
  rssFetch : Except Unit (List Article)

/-- The deduplication applied to a collector's result (main.py 197-200,
223-226, 246-249): only when the list is non-empty and deduplication is
enabled in configuration. -/
def applyDedup (env : PipeEnv) (s : AppSettings)
    (articles : List Article) : List Article :=
  if articles ≠ [] ∧ s.dedupEnabled then
    deduplicate_articles env.dedup env.hist articles
  else articles

/-- `run_pipeline` (main.py 140-262), instrumented: the second component
records, in order, each collector whose fetch was invoked.  Control flow:
missing e-mail configuration raises `ValueError` (uncaught); the
education-portal (huatu) branch swallows its own exception and falls
through; the portal branch returns only when articles survive
deduplication; the search/RSS branches return `None` on a collection
exception; an empty final list returns `None`. -/
def run_pipelineT (env : PipeEnv) (s : AppSettings) :
    Except Unit (Option Digest) × List Collector :=
  if ¬ s.emailPresent then (.error (), [])
  else
    let hua : Option (Except Unit (Option Digest)) × List Collector :=
      if s.huatuEnabled then
        match env.huatuFetch with
        | .error _ => (none, [.huatu])
        | .ok arts =>
          let arts2 := applyDedup env s arts
          if arts2 ≠ [] then
            match process_articlesT env.proc s arts2 with
            | (.ok r, _) => (some (.ok r), [.huatu])
            | (.error _, _) => (none, [.huatu])
          else (none, [.huatu])
      else (none, [])
    match hua.1 with
    | some r => (r, hua.2)
    | none =>
      if (match s.topic with
          | some t => t ≠ [] && pyStrip t ≠ []
          | none => false : Bool) then
        match env.googleFetch with
        | .error _ => (.ok none, hua.2 ++ [.google])
        | .ok arts =>
          let arts2 := applyDedup env s arts
          if arts2 = [] then (.ok none, hua.2 ++ [.google])
          else ((process_articlesT env.proc s arts2).1, hua.2 ++ [.google])
      else
        let feeds : List Str :=
          match s.rss_feed_urls with
          | some l =>
            if l ≠ [] then l
            else
              match s.rss_feed_url with
              | some u => if u ≠ [] then [u] else []
              | none => []
          | none =>
            match s.rss_feed_url with
            | some u => if u ≠ [] then [u] else []
            | none => []
        if feeds ≠ [] then
          match env.rssFetch with
          | .error _ => (.ok none, hua.2 ++ [.rss])
          | .ok arts =>
            let arts2 := applyDedup env s arts
            if arts2 = [] then (.ok none, hua.2 ++ [.rss])
            else ((process_articlesT env.proc s arts2).1, hua.2 ++ [.rss])
        else (.ok none, hua.2)

/-- `run_pipeline`, result only. -/
def run_pipeline (env : PipeEnv) (s : AppSettings) :
    Except Unit (Option Digest) :=
  (run_pipelineT env s).1

/-! ## A well-formed URL class for the idempotency analysis

`normalize_url` is not idempotent on arbitrary URLs (see the C9
counterexample).  The class below — `http://host/path?query` with
lower-case unreserved components and a percent-free query — is the class on
which idempotency is proved. -/

/-- Lower-case ASCII letter. -/
def lowerAlpha (c : Char) : Bool := 97 ≤ c.toNat ∧ c.toNat ≤ 122

/-- Host characters: lower-case letters, digits, `.` and `-`. -/
def hostChar (c : Char) : Bool :=
  lowerAlpha c ∨ isAsciiDigit c ∨ c.toNat = 46 ∨ c.toNat = 45

/-- Path characters: lower-case letters, digits, `/`, `.`, `-` and `_`. -/
def pathChar (c : Char) : Bool :=
  lowerAlpha c ∨ isAsciiDigit c ∨ c.toNat = 47 ∨ c.toNat = 46 ∨
    c.toNat = 45 ∨ c.toNat = 95

/-- Query characters: lower-case letters, digits, `=`, `&`, `+`, `.`, `-`,
`_` and `~` (no percent-escapes). -/
def queryChar (c : Char) : Bool :=
  lowerAlpha c ∨ isAsciiDigit c ∨ c.toNat = 61 ∨ c.toNat = 38 ∨
    c.toNat = 43 ∨ c.toNat = 46 ∨ c.toNat = 45 ∨ c.toNat = 95 ∨
    c.toNat = 126

/-- The query characters that survive a `parse_qsl` decode: query
characters minus `&` and `+`, plus the space `+` decodes to. -/
def dChar (c : Char) : Bool :=
  lowerAlpha c ∨ isAsciiDigit c ∨ c.toNat = 61 ∨ c.toNat = 32 ∨
    c.toNat = 46 ∨ c.toNat = 45 ∨ c.toNat = 95 ∨ c.toNat = 126

/-- The property a query string needs for `urlsplit` to parse it verbatim:
no `#`, no C0-control or space (which also excludes tab/CR/LF). -/
def qParseOK (c : Char) : Bool :=
  ¬ c.toNat = 35 ∧ 32 < c.toNat

/-- An `http` URL assembled from components (the shape produced by
`urlunparse` for a scheme-`http`, fragment-free parse). -/
def mkUrl (host path : Str) (q : Option Str) : Str :=
  "http://".toList ++ host ++ path ++
    (match q with
     | some qs => '?' :: qs
     | none => [])

/-! ## Fixtures and auxiliary definitions used by the theorems -/

/-- Fixture article for C1. -/
def aC1 : Article :=
  ⟨"公告".toList, "http://e.com/a1".toList, "内容一".toList, "src".toList⟩

/-- Fixture processed article for C1. -/
def pC1 : ProcessedArticle := ⟨aC1, "summary1".toList⟩

/-- C1 settings fixture: e-mail configured. -/
def sC1 : AppSettings :=
  ⟨"NewsTracker".toList, "2026-01-01 09:00".toList, true, true, false,
   none, none, none, true⟩

/-- C1 environment fixture: everything succeeds except the notifier, which
always raises. -/
def envC1 : ProcEnv :=
  ⟨.ok (), fun _ => .ok pC1, fun _ => .ok "总结".toList,
   fun _ => .ok (), fun _ => .ok (), fun _ => .error ()⟩

/-- The digest `process_articles` constructs in the C1 scenario. -/
def dgC1 : Digest :=
  ⟨"NewsTracker - 2026-01-01 09:00".toList, [pC1], none⟩

/-- Fixture articles for C3: the first fails processing, the second
succeeds. -/
def aC3a : Article :=
  ⟨"文章甲".toList, "http://e.com/x1".toList, "正文甲".toList, "s".toList⟩

/-- Second fixture article for C3. -/
def aC3b : Article :=
  ⟨"文章乙".toList, "http://e.com/x2".toList, "正文乙".toList, "s".toList⟩

/-- Fixture processed article for C3. -/
def pC3 : ProcessedArticle := ⟨aC3b, "summary3".toList⟩

/-- C3 settings fixture. -/
def sC3 : AppSettings :=
  ⟨"NewsTracker".toList, "2026-01-01 09:00".toList, true, false, false,
   none, none, none, true⟩

/-- C3 environment fixture: processing raises on the first article,
succeeds on the second; the overall summariser succeeds with `"S"`. -/
def envC3 : ProcEnv :=
  ⟨.ok (), fun a => if a = aC3a then .error () else .ok pC3,
   fun _ => .ok "S".toList, fun _ => .ok (), fun _ => .ok (),
   fun _ => .ok ()⟩

/-- The digest `process_articles` constructs in the C3 scenario: the
overall summary is present even though only one article was successfully
processed. -/
def dgC3 : Digest :=
  ⟨"NewsTracker - 广东考公汇总 - 2026-01-01 09:00".toList, [pC3],
   some "S".toList⟩

/-- Whether an orchestrator outcome is a normal return (no exception). -/
def exceptIsOk : Except Unit (Option Digest) → Bool
  | .ok _ => true
  | .error _ => false

/-- Fixture article collected by the portal in the C2 witness run. -/
def aC2 : Article :=
  ⟨"华图公告".toList, "http://huatu.com/n1".toList, "华图内容".toList,
   "huatu".toList⟩

/-- Fixture article the search collector would return in the C2 runs. -/
def aC2g : Article :=
  ⟨"搜索结果".toList, "http://g.com/r1".toList, "搜索内容".toList,
   "google".toList⟩

/-- Fixture processed article for C2. -/
def pC2 : ProcessedArticle := ⟨aC2, "sum2".toList⟩

/-- History environment with an empty, enabled history: no URL matches, no
recent articles. -/
def envHistEmpty : HistoryEnv :=
  ⟨true, fun _ => .ok false, fun _ _ => .ok []⟩

/-- C2 settings fixture: portal enabled, a search topic also configured. -/
def sC2 : AppSettings :=
  ⟨"NewsTracker".toList, "2026-01-01 09:00".toList, true, true, true,
   some "广东考公".toList, none, none, true⟩

/-- C2 pipeline environment for the counterexample: the portal fetch
returns normally with zero articles; the search collector then returns one
article. -/
def envC2 : PipeEnv :=
  ⟨⟨.ok (), fun _ => .ok pC2, fun _ => .ok "总".toList, fun _ => .ok (),
    fun _ => .ok (), fun _ => .ok ()⟩,
   {}, envHistEmpty, .ok [], .ok [aC2g], .ok []⟩

/-- C2 pipeline environment for the amended witness: the portal fetch
returns one article that survives deduplication against an empty history. -/
def envC2w : PipeEnv :=
  ⟨⟨.ok (), fun _ => .ok pC2, fun _ => .ok "总".toList, fun _ => .ok (),
    fun _ => .ok (), fun _ => .ok ()⟩,
   {}, envHistEmpty, .ok [aC2], .ok [aC2g], .ok []⟩

/-- A deduplication configuration with a non-default lookback window. -/
def cfg30 : DeduplicationConfig := { load_existing_days := 30 }

/-- A history backend that only answers `get_recent` queries for a 30-day
window (any other window raises): a probe for the `days` argument actually
passed. -/
def env30 : HistoryEnv :=
  ⟨true, fun _ => .ok false,
   fun days _ => if days = 30 then .ok [] else .error ()⟩

/-- Fixture article for C6. -/
def aC6 : Article :=
  ⟨"标题六".toList, "http://e.com/c6".toList, "正文六".toList, "s".toList⟩

/-- Fixture article for C7. -/
def aC7 : Article :=
  ⟨"标题七".toList, "http://e.com/c7".toList, "正文七".toList, "s".toList⟩

/-- History environment with the backend disabled. -/
def envDisabled : HistoryEnv :=
  ⟨false, fun _ => .ok false, fun _ _ => .ok []⟩

/-- History environment whose every query raises. -/
def envRaising : HistoryEnv :=
  ⟨true, fun _ => .error (), fun _ _ => .error ()⟩

/-- Fixture article for C8: the spec's scenario URL with a tracking
parameter, repeated three times in the batch. -/
def aC8 : Article :=
  ⟨"同一文章".toList, "http://x.com/a?utm_source=y".toList,
   "同一内容".toList, "s".toList⟩

/-- The per-character chunk of `quotePlus`. -/
def qpChunk (c : Char) : Str :=
  if isAlwaysSafe c then [c]
  else if c = ' ' then ['+']
  else ((utf8Bytes c).map pctEncodeByte).flatten

/-- A grouped query dictionary flattened back into one pair per value. -/
def flattenPairs (G : List (Str × List Str)) : List (Str × Str) :=
  (G.map (fun kv => kv.2.map (fun v => (kv.1, v)))).flatten

/-! # Theorems -/

/-! ## Case-folding basics -/

theorem pyCharLower_of_find?_none {c : Char}
    (h : upperLowerTable.find? (fun p => p.1 = c) = none) :
    pyCharLower c = c := by
  simp [pyCharLower, h]

theorem pyCharLower_of_find?_some {c : Char} {p : Char × Char}
    (h : upperLowerTable.find? (fun q => q.1 = c) = some p) :
    pyCharLower c = p.2 := by
  simp [pyCharLower, h]

theorem pyCharLower_idem (c : Char) :
    pyCharLower (pyCharLower c) = pyCharLower c := by
  have htab : ∀ p ∈ upperLowerTable,
      upperLowerTable.find? (fun q => q.1 = p.2) = none := by decide
  cases h : upperLowerTable.find? (fun q => q.1 = c) with
  | none => rw [pyCharLower_of_find?_none h, pyCharLower_of_find?_none h]
  | some p =>
    rw [pyCharLower_of_find?_some h,
      pyCharLower_of_find?_none (htab p (List.mem_of_find?_eq_some h))]

theorem pyLower_idem (s : Str) : pyLower (pyLower s) = pyLower s := by
  induction s with
  | nil => rfl
  | cons c cs ih =>
    simp only [pyLower, List.map_cons] at ih ⊢
    rw [pyCharLower_idem]
    exact congrArg _ ih

theorem normalize_url_congr {u1 u2 : Str} (h : pyLower u1 = pyLower u2) :
    normalize_url u1 = normalize_url u2 := by
  unfold normalize_url
  rw [h]

/-! ## C10 -/

/-- C10: `normalize_url` factors through lower-casing: for every URL `u`,
`normalize_url u = normalize_url (lowercase u)`; two URLs with the same
lower-casing (differing only in letter case, anywhere — scheme, host, path
or query) normalise identically, and two such non-empty URLs receive
`url_similarity` `1.0`. -/
theorem C10_lowercases_whole_url :
    (∀ u : Str, normalize_url (pyLower u) = normalize_url u) ∧
    (∀ u1 u2 : Str, pyLower u1 = pyLower u2 →
      normalize_url u1 = normalize_url u2) ∧
    (∀ u1 u2 : Str, u1 ≠ [] → u2 ≠ [] → pyLower u1 = pyLower u2 →
      calculate_url_similarity u1 u2 = 1) := by
  refine ⟨fun u => normalize_url_congr (pyLower_idem u),
    fun u1 u2 h => normalize_url_congr h, fun u1 u2 h1 h2 h => ?_⟩
  have hn : normalize_url u1 = normalize_url u2 := normalize_url_congr h
  simp [calculate_url_similarity, h1, h2, hn]

/-- Witness for C10 at concrete URLs differing only in letter case. -/
theorem C10_witness :
    normalize_url (pyLower "HTTP://X.com/A/B?C=D&utm_source=S".toList) =
      normalize_url "HTTP://X.com/A/B?C=D&utm_source=S".toList ∧
    calculate_url_similarity "http://X.com/Ab?C=d".toList
      "http://x.com/aB?c=D".toList = 1 :=
  ⟨C10_lowercases_whole_url.1 _,
   C10_lowercases_whole_url.2.2 _ _ (by decide) (by decide) (by decide)⟩

/-! ## C1 -/

/-- A `match` on an `Except Unit Unit` whose branches both answer
`.ok ()` — the shape of a `try/except` that logs and continues. -/
theorem except_unit_collapse (x : Except Unit Unit) :
    (match x with
     | .ok _ => (Except.ok () : Except Unit Unit)
     | .error _ => .ok ()) = .ok () := by
  cases x <;> rfl

/-- C1 amended: the notify stage's exception is caught inside
`process_articles` (main.py 128-133), so the run's outcome is entirely
independent of the notifier: replacing `send_digest` by any behaviour
(including always raising) leaves the result and the summarisation trace
unchanged — a thrown notification never propagates and never prevents the
constructed `Digest` from being returned. -/
theorem processLoop_sendDigest_irrelevant (env : ProcEnv)
    (f : Digest → Except Unit Unit) (arts : List Article) :
    processLoop { env with sendDigest := f } arts = processLoop env arts :=
  rfl

theorem C1_amended_notifier_error_swallowed (env : ProcEnv) (s : AppSettings)
    (f : Digest → Except Unit Unit) (arts : List Article) :
    process_articlesT { env with sendDigest := f } s arts =
      process_articlesT env s arts := by
  unfold process_articlesT
  simp only [except_unit_collapse, ite_self,
    processLoop_sendDigest_irrelevant]

/-- C1 counterexample: a run with e-mail configured in which the notifier's
`send_digest` raises, yet `process_articles` returns the constructed
`Digest` as a normal (non-exceptional) outcome — the notification error
does not propagate to the caller as the run's final outcome. -/
theorem C1_counterexample :
    sC1.emailPresent = true ∧
    envC1.sendDigest dgC1 = .error () ∧
    process_articles envC1 sC1 [aC1] = .ok (some dgC1) :=
  ⟨rfl, rfl, rfl⟩

/-! ## C3 -/

/-- C3 counterexample: two articles are collected, exactly one is
successfully processed, yet `summarize_articles` is invoked (the gate is
`len(articles) > 1` on the collected list, main.py 101) and the resulting
`Digest` carries an overall summary. -/
theorem C3_counterexample :
    processLoop envC3 [aC3a, aC3b] = [pC3] ∧
    (process_articlesT envC3 sC3 [aC3a, aC3b]).2 = true ∧
    process_articles envC3 sC3 [aC3a, aC3b] = .ok (some dgC3) :=
  ⟨rfl, rfl, rfl⟩

/-- C3 amended: the overall-summary gate counts the *collected* articles
passed to `process_articles`, not the successfully processed ones; in a
single-article run `summarize_articles` is never invoked and any returned
digest has no overall summary. -/
theorem C3_amended_overall_gate_counts_input (env : ProcEnv)
    (s : AppSettings) (a : Article) :
    (process_articlesT env s [a]).2 = false ∧
    (∀ dg : Digest, process_articles env s [a] = .ok (some dg) →
      dg.overall_summary = none) := by
  unfold process_articles process_articlesT
  cases h : env.initProcessor with
  | error e => simp [h]
  | ok u =>
    simp only [h]
    cases hp : processLoop env [a] with
    | nil => simp
    | cons p ps =>
      simp [except_unit_collapse, ite_self]

/-- Witness for C3 amended at a concrete single-article run. -/
theorem C3_amended_witness :
    (process_articlesT envC1 sC1 [aC1]).2 = false ∧
    dgC1.overall_summary = none :=
  ⟨(C3_amended_overall_gate_counts_input envC1 sC1 aC1).1,
   (C3_amended_overall_gate_counts_input envC1 sC1 aC1).2 dgC1 (by rfl)⟩

/-! ## C2 -/

theorem exceptIsOk_exists {x : Except Unit (Option Digest)}
    (h : exceptIsOk x = true) : ∃ o, x = .ok o := by
  cases x with
  | ok o => exact ⟨o, rfl⟩
  | error e => simp [exceptIsOk] at h

/-- `process_articles` never raises: its whole body sits in a
`try/except` answering `return None` (main.py 70, 136-138). -/
theorem process_articlesT_no_raise (env : ProcEnv) (s : AppSettings)
    (arts : List Article) :
    exceptIsOk (process_articlesT env s arts).1 = true := by
  unfold process_articlesT
  by_cases h0 : arts = []
  · simp [h0, exceptIsOk]
  · cases h : env.initProcessor with
    | error e => simp [h0, h, exceptIsOk]
    | ok u =>
      by_cases hp : processLoop env arts = []
      · simp [h0, h, hp, exceptIsOk]
      · simp [h0, h, hp, except_unit_collapse, ite_self, exceptIsOk]

/-- C2 amended: when the education-portal collector is enabled, fetches
normally and at least one article survives deduplication, it is the only
collector invoked in the run.  (When zero articles survive — a normal empty
fetch or full deduplication — the pipeline falls through and may invoke a
second collector; see the counterexample.) -/
theorem C2_amended_single_collector_when_portal_yields (env : PipeEnv)
    (s : AppSettings) (arts : List Article)
    (hmail : s.emailPresent = true)
    (hen : s.huatuEnabled = true)
    (hf : env.huatuFetch = .ok arts)
    (hne : applyDedup env s arts ≠ []) :
    (run_pipelineT env s).2 = [Collector.huatu] := by
  obtain ⟨o, ho⟩ :=
    exceptIsOk_exists (process_articlesT_no_raise env.proc s (applyDedup env s arts))
  unfold run_pipelineT
  rcases hq : process_articlesT env.proc s (applyDedup env s arts) with ⟨q1, q2⟩
  have hq1 : q1 = .ok o := by rw [← ho, hq]
  simp [hmail, hen, hf, hne, hq, hq1]

/-- C2 counterexample: the education-portal collector is enabled and its
fetch returns normally (with an empty list), yet the Google-search
collector is also invoked in the same run — two collectors' fetches in one
invocation. -/
theorem C2_counterexample :
    sC2.huatuEnabled = true ∧
    envC2.huatuFetch = .ok [] ∧
    (run_pipelineT envC2 sC2).2 = [Collector.huatu, Collector.google] :=
  ⟨rfl, rfl, rfl⟩

/-- Witness for C2 amended: with a surviving portal article, the portal is
the only collector invoked. -/
theorem C2_amended_witness :
    (run_pipelineT envC2w sC2).2 = [Collector.huatu] :=
  C2_amended_single_collector_when_portal_yields envC2w sC2 [aC2]
    (by rfl) (by rfl) (by rfl) (by decide)

/-! ## C6 -/

/-- C6: with `deduplication.load_existing_days` configured to 30, the
content check still queries `get_recent_articles(days=7, limit=1000)` — the
literals at deduplication.py line 184 — so a backend that only recognises
the configured 30-day window sees the query fail.  The configured value
(whose own comment reads "Days to look back for existing articles") never
reaches the query. -/
theorem C6_lookback_hardcoded :
    cfg30.load_existing_days = 30 ∧
    (is_duplicate_by_contentT {} env30 aC6).2 = [(7, 1000)] ∧
    is_duplicate_by_content {} env30 aC6 =
      (false, "Database check failed".toList) :=
  ⟨rfl, rfl, rfl⟩

/-! ## C7 -/

/-- C7 counterexample: with the history backend disabled, the top-level
`is_duplicate` answers `(False, "")` — exactly the answer a normal unique
article gets against an enabled, empty history.  The degraded reason is the
empty string, not a distinct reason: `is_duplicate` discards its
sub-checks' reasons (deduplication.py 226). -/
theorem C7_counterexample :
    is_duplicate {} envDisabled aC7 = (false, []) ∧
    is_duplicate {} envHistEmpty aC7 = (false, []) :=
  ⟨rfl, rfl⟩

/-- C7 amended: when the backend is disabled or every history query raises,
no exception propagates and every check degrades to "not a duplicate": the
*sub-checks* carry the distinct reasons (`"Database not enabled"` /
`"Database check failed"`, deduplication.py 145, 164, 181, 204), while the
top-level `is_duplicate` returns `(False, "")`, discarding them. -/
theorem C7_amended_degraded_reasons (d : Dedup) (env : HistoryEnv)
    (a : Article)
    (h : env.dbEnabled = false ∨
      ((∀ u, env.checkUrl u = .error ()) ∧
       (∀ days limit, env.getRecent days limit = .error ()))) :
    (is_duplicate_by_url env a = (false, "Database not enabled".toList) ∨
     is_duplicate_by_url env a = (false, "Database check failed".toList)) ∧
    (is_duplicate_by_content d env a =
        (false, "Database not enabled".toList) ∨
     is_duplicate_by_content d env a =
        (false, "Database check failed".toList)) ∧
    is_duplicate d env a = (false, []) := by
  by_cases hdb : env.dbEnabled = false
  · refine ⟨Or.inl ?_, Or.inl ?_, ?_⟩ <;>
      simp [is_duplicate, is_duplicate_by_url, is_duplicate_by_content,
        is_duplicate_by_contentT, hdb]
  · have hdb' : env.dbEnabled = true := by simpa using hdb
    rcases h with h | ⟨hu, hr⟩
    · exact absurd h hdb
    · refine ⟨Or.inr ?_, Or.inr ?_, ?_⟩ <;>
        simp [is_duplicate, is_duplicate_by_url, is_duplicate_by_content,
          is_duplicate_by_contentT, hdb', hu, hr]

/-- Witness for C7 amended at the raising backend. -/
theorem C7_amended_witness :
    (is_duplicate_by_url envRaising aC7 =
        (false, "Database not enabled".toList) ∨
     is_duplicate_by_url envRaising aC7 =
        (false, "Database check failed".toList)) ∧
    (is_duplicate_by_content {} envRaising aC7 =
        (false, "Database not enabled".toList) ∨
     is_duplicate_by_content {} envRaising aC7 =
        (false, "Database check failed".toList)) ∧
    is_duplicate {} envRaising aC7 = (false, []) :=
  C7_amended_degraded_reasons {} envRaising aC7
    (Or.inr ⟨fun _ => rfl, fun _ _ => rfl⟩)

/-! ## C8 -/

/-- Against an enabled backend with no URL matches and no recent articles,
every article is classified unique with the empty reason. -/
theorem is_duplicate_empty_history (d : Dedup) (env : HistoryEnv)
    (hdb : env.dbEnabled = true)
    (hurl : ∀ u, env.checkUrl u = .ok false)
    (hrec : ∀ days limit, env.getRecent days limit = .ok [])
    (a : Article) :
    is_duplicate d env a = (false, []) := by
  simp [is_duplicate, is_duplicate_by_url, is_duplicate_by_content,
    is_duplicate_by_contentT, contentScan, hdb, hurl, hrec]

/-- C8: `deduplicate_articles` consults only the external history: against
an empty history every article of the batch survives, in input order, even
when the batch members are pairwise identical in URL and content (no
intra-batch pass). -/
theorem C8_no_intra_batch_dedup (d : Dedup) (env : HistoryEnv)
    (arts : List Article)
    (hdb : env.dbEnabled = true)
    (hurl : ∀ u, env.checkUrl u = .ok false)
    (hrec : ∀ days limit, env.getRecent days limit = .ok [])
    (_hsame : ∀ a ∈ arts, ∀ b ∈ arts, a.url = b.url ∧ a.content = b.content) :
    deduplicate_articles d env arts = arts := by
  have hgen : ∀ (l : List Article) (acc : List Article),
      l.foldl
        (fun unique_articles article =>
          if (is_duplicate d env article).1 then unique_articles
          else unique_articles ++ [article]) acc = acc ++ l := by
    intro l
    induction l with
    | nil => intro acc; simp
    | cons a l ih =>
      intro acc
      simp [is_duplicate_empty_history d env hdb hurl hrec a, ih]
  simpa using hgen arts []

/-- Witness for C8: a batch of three identical articles survives unchanged
against an empty history. -/
theorem C8_witness :
    deduplicate_articles {} envHistEmpty [aC8, aC8, aC8] = [aC8, aC8, aC8] :=
  C8_no_intra_batch_dedup {} envHistEmpty [aC8, aC8, aC8]
    (by rfl) (fun _ => rfl) (fun _ _ => rfl) (by decide)

/-! ## C4 -/

/-- C4 counterexample: `SequenceMatcher.ratio` is order-dependent, so
`content_similarity` is not symmetric.  On `"abqcd"` vs `"cdrabxcd"` the
forward direction matches the blocks `"ab"` and `"cd"` (ratio `8/13`) while
the reverse direction's first longest match `"cd"` leaves nothing matchable
in the recursion (ratio `4/13`). -/
theorem C4_counterexample :
    calculate_content_similarity "abqcd".toList "cdrabxcd".toList = 8 / 13 ∧
    calculate_content_similarity "cdrabxcd".toList "abqcd".toList = 4 / 13 ∧
    ¬ calculate_content_similarity "abqcd".toList "cdrabxcd".toList =
        calculate_content_similarity "cdrabxcd".toList "abqcd".toList := by
  have hs1 : "abqcd".toList = ['a', 'b', 'q', 'c', 'd'] := rfl
  have hs2 : "cdrabxcd".toList = ['c', 'd', 'r', 'a', 'b', 'x', 'c', 'd'] := rfl
  have hnc1 : normalizeContent ['a', 'b', 'q', 'c', 'd'] =
      ['a', 'b', 'q', 'c', 'd'] := by decide
  have hnc2 : normalizeContent ['c', 'd', 'r', 'a', 'b', 'x', 'c', 'd'] =
      ['c', 'd', 'r', 'a', 'b', 'x', 'c', 'd'] := by decide
  have hm1 : mbSum ['a', 'b', 'q', 'c', 'd'] ['c', 'd', 'r', 'a', 'b', 'x', 'c', 'd']
      6 0 5 0 8 = 4 := by decide
  have hm2 : mbSum ['c', 'd', 'r', 'a', 'b', 'x', 'c', 'd'] ['a', 'b', 'q', 'c', 'd']
      9 0 8 0 5 = 2 := by decide
  have hf : calculate_content_similarity "abqcd".toList "cdrabxcd".toList = 8 / 13 := by
    rw [hs1, hs2]
    unfold calculate_content_similarity
    rw [if_neg (by simp), hnc1, hnc2]
    unfold smRatio
    simp only [List.length_cons, List.length_nil]
    norm_num [hm1]
  have hg : calculate_content_similarity "cdrabxcd".toList "abqcd".toList = 4 / 13 := by
    rw [hs1, hs2]
    unfold calculate_content_similarity
    rw [if_neg (by simp), hnc1, hnc2]
    unfold smRatio
    simp only [List.length_cons, List.length_nil]
    norm_num [hm2]
  refine ⟨hf, hg, ?_⟩
  rw [hf, hg]
  norm_num

/-- C4 amended: `content_similarity` is symmetric in the special cases the
spec exhibits — when either input is empty (both directions `0.0`) and when
the two normalised contents coincide — but not in general (see the
counterexample): the underlying `SequenceMatcher.ratio` is order-dependent. -/
theorem C4_amended_symmetry_special_cases (a b : Str)
    (h : a = [] ∨ b = [] ∨ normalizeContent a = normalizeContent b) :
    calculate_content_similarity a b = calculate_content_similarity b a := by
  unfold calculate_content_similarity
  rcases h with h | h | h
  · simp [h]
  · simp [h]
  · by_cases ha : a = []
    · simp [ha]
    · by_cases hb : b = []
      · simp [hb]
      · simp [ha, hb, h]

/-- Witness for C4 amended: two contents equal after whitespace/case
normalisation get equal similarity in both directions. -/
theorem C4_amended_witness :
    calculate_content_similarity "A  b ".toList "a b".toList =
      calculate_content_similarity "a b".toList "A  b ".toList :=
  C4_amended_symmetry_special_cases _ _ (Or.inr (Or.inr (by decide)))

/-! ## C5 -/

/-- C5 counterexample: `parse_qs` groups duplicate parameter names into one
dictionary entry and drops empty-valued parameters, so `normalize_url` does
*not* preserve the original relative order of duplicate occurrences
(`a=1&b=2&a=3` becomes `a=1&a=3&b=2`) and does *not* keep parameters with
empty values (`a=&b=1` becomes `b=1`). -/
theorem C5_counterexample :
    normalize_url "http://x.com/a?a=1&b=2&a=3".toList =
      "http://x.com/a?a=1&a=3&b=2".toList ∧
    normalize_url "http://x.com/a?a=1&b=2&a=3".toList ≠
      "http://x.com/a?a=1&b=2&a=3".toList ∧
    normalize_url "http://x.com/a?a=&b=1".toList =
      "http://x.com/a?b=1".toList :=
  ⟨rfl, by decide, rfl⟩

theorem unquote_ne_nil (s : Str) (h : s ≠ []) : unquote s ≠ [] := by
  rw [unquote.eq_def]
  split
  · exact absurd rfl h
  · split <;> simp
  · simp

/-- `map Prod.fst` commutes with filtering on a key predicate. -/
theorem map_fst_filter_key {β : Type} (p : Str → Bool)
    (l : List (Str × β)) :
    (l.filter (fun kv => p kv.1)).map Prod.fst =
      (l.map Prod.fst).filter p := by
  induction l with
  | nil => rfl
  | cons kv t ih => by_cases h : p kv.1 <;> simp [h, ih]

/-- The grouping loop of `parse_qs`: its keys are exactly the pairs' names,
each key appears once, and each entry collects, in order, all values whose
pair carries that name. -/
theorem foldl_addPair_spec (pairs : List (Str × Str)) :
    (∀ k, k ∈ (pairs.foldl addPair []).map Prod.fst ↔
      k ∈ pairs.map Prod.fst) ∧
    ((pairs.foldl addPair []).map Prod.fst).Nodup ∧
    (∀ k vs, (k, vs) ∈ pairs.foldl addPair [] →
      vs = (pairs.filter (fun kv => kv.1 = k)).map Prod.snd) := by
  induction pairs using List.reverseRecOn with
  | nil => exact ⟨by simp, by simp, by simp⟩
  | append_singleton l kv ih =>
    obtain ⟨ihk, ihn, ihv⟩ := ih
    rw [List.foldl_append]
    simp only [List.foldl_cons, List.foldl_nil]
    by_cases hany : (l.foldl addPair []).any (fun p => p.1 = kv.1) = true
    · -- the key already exists: values updated in place, keys unchanged
      have hkeys : (addPair (l.foldl addPair []) kv).map Prod.fst =
          (l.foldl addPair []).map Prod.fst := by
        simp only [addPair, hany, if_true]
        rw [List.map_map]
        apply List.map_congr_left
        intro p _
        by_cases hp : p.1 = kv.1 <;> simp [hp]
      have hmem : kv.1 ∈ (l.foldl addPair []).map Prod.fst := by
        rcases List.any_eq_true.mp hany with ⟨p, hpmem, hpeq⟩
        exact List.mem_map.mpr ⟨p, hpmem, by simpa using hpeq⟩
      refine ⟨?_, by rw [hkeys]; exact ihn, ?_⟩
      · intro k
        rw [hkeys, List.map_append]
        simp only [List.mem_append, List.map_cons, List.map_nil,
          List.mem_singleton]
        constructor
        · intro hk; exact Or.inl ((ihk k).mp hk)
        · rintro (hk | hk)
          · exact (ihk k).mpr hk
          · subst hk; exact hmem
      · intro k vs hkvs
        simp only [addPair, hany, if_true] at hkvs
        rcases List.mem_map.mp hkvs with ⟨p, hpmem, hpeq⟩
        by_cases hp : p.1 = kv.1
        · rw [if_pos hp] at hpeq
          cases hpeq
          rw [List.filter_append, List.map_append,
            ← ihv p.1 p.2 hpmem]
          simp [hp.symm]
        · rw [if_neg hp] at hpeq
          subst hpeq
          rw [ihv k vs hpmem, List.filter_append]
          have hne : ¬ (kv.1 = k) := fun hc => hp (by simpa using hc.symm)
          simp [hne]
    · -- a new key: appended at the end
      have hnot : kv.1 ∉ (l.foldl addPair []).map Prod.fst := by
        intro hc
        rcases List.mem_map.mp hc with ⟨p, hpmem, hpeq⟩
        exact absurd (List.any_eq_true.mpr ⟨p, hpmem, by simpa using hpeq⟩)
          hany
      have heq : addPair (l.foldl addPair []) kv =
          (l.foldl addPair []) ++ [(kv.1, [kv.2])] := by
        simp [addPair, hany]
      refine ⟨?_, ?_, ?_⟩
      · intro k
        rw [heq]
        simp only [List.map_append, List.mem_append, List.map_cons,
          List.map_nil, List.mem_singleton]
        exact or_congr (ihk k) Iff.rfl
      · rw [heq, List.map_append]
        simp only [List.map_cons, List.map_nil]
        rw [List.nodup_append]
        exact ⟨ihn, List.nodup_singleton _,
          by simpa [List.disjoint_right] using hnot⟩
      · intro k vs hkvs
        rw [heq, List.mem_append] at hkvs
        rcases hkvs with hkvs | hkvs
        · have hne : ¬ kv.1 = k := by
            intro hc
            apply hnot
            rw [hc]
            exact List.mem_map.mpr ⟨(k, vs), hkvs, rfl⟩
          rw [ihv k vs hkvs, List.filter_append]
          simp [hne]
        · simp only [List.mem_singleton, Prod.mk.injEq] at hkvs
          obtain ⟨hk, hvs⟩ := hkvs
          have hfl : l.filter (fun x => x.1 = k) = [] := by
            rw [List.filter_eq_nil_iff]
            intro x hx hc
            apply hnot
            apply (ihk kv.1).mpr
            refine List.mem_map.mpr ⟨x, hx, ?_⟩
            have : x.1 = k := by simpa using hc
            rw [this, hk]
          rw [List.filter_append, hfl]
          simp [hvs, hk]

/-- C5 amended: `normalize_url` removes exactly the deny-listed parameters
(matched case-insensitively on the decoded name), and every survivor is
re-encoded with all its values — but grouped by name at the name's first
occurrence (duplicate occurrences of one name are made adjacent, each name
appearing once), and parameters with empty values are dropped entirely by
`parse_qs`. -/
theorem C5_amended_query_filtering (q : Str) :
    (∀ kv ∈ parse_qsl q, kv.2 ≠ []) ∧
    (filteredParams q).map Prod.fst =
      ((parse_qs q).map Prod.fst).filter
        (fun k => ¬ trackingParams.contains (pyLower k)) ∧
    ((parse_qs q).map Prod.fst).Nodup ∧
    (∀ k vs, (k, vs) ∈ parse_qs q →
      vs = ((parse_qsl q).filter (fun kv => kv.1 = k)).map Prod.snd) := by
  obtain ⟨hk, hn, hv⟩ := foldl_addPair_spec (parse_qsl q)
  refine ⟨?_, ?_, hn, hv⟩
  · intro kv hkv
    rcases List.mem_filterMap.mp hkv with ⟨nv, _, hf⟩
    by_cases h0 : nv = []
    · simp [h0] at hf
    · rcases hsp : splitFirst '=' nv with ⟨name, rest⟩
      cases rest with
      | none => simp [h0, hsp] at hf
      | some value =>
        by_cases hval : value = []
        · simp [h0, hsp, hval] at hf
        · simp only [h0, if_false, hsp, hval] at hf
          have hkv : kv = (unquote (plusToSpace name), unquote (plusToSpace value)) :=
            (Option.some.inj hf).symm
          rw [hkv]
          show unquote (plusToSpace value) ≠ []
          apply unquote_ne_nil
          simp [plusToSpace, hval]
  · unfold filteredParams
    exact map_fst_filter_key
      (fun k => ¬ trackingParams.contains (pyLower k)) (parse_qs q)

/-- Witness for C5 amended at the query `a=1&b=2&a=3`: the value `"1"` of a
parsed pair is non-empty, and the grouped entry for `a` collects the values
`1, 3` in order. -/
theorem C5_amended_witness :
    ("1".toList : Str) ≠ [] ∧
    (["1".toList, "3".toList] : List Str) =
      ((parse_qsl "a=1&b=2&a=3".toList).filter
        (fun kv => kv.1 = "a".toList)).map Prod.snd :=
  ⟨(C5_amended_query_filtering "a=1&b=2&a=3".toList).1
      ("a".toList, "1".toList) (by decide),
   (C5_amended_query_filtering "a=1&b=2&a=3".toList).2.2.2
      "a".toList ["1".toList, "3".toList] (by decide)⟩

/-! ## C9: generic string lemmas -/

theorem ne_of_toNat_ne {c d : Char} (h : c.toNat ≠ d.toNat) : c ≠ d :=
  fun hc => h (congrArg Char.toNat hc)

theorem splitFirst_of_not_mem {c : Char} :
    ∀ {s : Str}, c ∉ s → splitFirst c s = (s, none) := by
  intro s
  induction s with
  | nil => intro _; rfl
  | cons x xs ih =>
    intro h
    have hx : ¬ x = c := fun hc => h (hc ▸ List.mem_cons_self x xs)
    simp [splitFirst, hx, ih (fun hc => h (List.mem_cons_of_mem _ hc))]

theorem splitFirst_append {c : Char} {ys : Str} :
    ∀ {xs : Str}, c ∉ xs → splitFirst c (xs ++ c :: ys) = (xs, some ys) := by
  intro xs
  induction xs with
  | nil => intro _; simp [splitFirst]
  | cons x t ih =>
    intro h
    have hx : ¬ x = c := fun hc => h (hc ▸ List.mem_cons_self x t)
    simp [splitFirst, hx, ih (fun hc => h (List.mem_cons_of_mem _ hc))]

theorem takeWhile_all {p : Char → Bool} :
    ∀ {s : Str}, (∀ x ∈ s, p x = true) → s.takeWhile p = s := by
  intro s
  induction s with
  | nil => intro _; rfl
  | cons x xs ih =>
    intro h
    rw [List.takeWhile_cons, h x (List.mem_cons_self x xs),
      ih (fun y hy => h y (List.mem_cons_of_mem _ hy))]
    simp

theorem takeWhile_append_stop {p : Char → Bool} {y : Char} {ys : Str}
    (hy : p y = false) :
    ∀ {xs : Str}, (∀ x ∈ xs, p x = true) →
      (xs ++ y :: ys).takeWhile p = xs := by
  intro xs
  induction xs with
  | nil => intro _; simp [List.takeWhile_cons, hy]
  | cons x t ih =>
    intro h
    rw [List.cons_append, List.takeWhile_cons,
      h x (List.mem_cons_self x t), ih (fun z hz => h z (List.mem_cons_of_mem _ hz))]
    simp

theorem dropWhile_append_stop {p : Char → Bool} {y : Char} {ys : Str}
    (hy : p y = false) :
    ∀ {xs : Str}, (∀ x ∈ xs, p x = true) →
      (xs ++ y :: ys).dropWhile p = y :: ys := by
  intro xs
  induction xs with
  | nil => intro _; simp [List.dropWhile_cons, hy]
  | cons x t ih =>
    intro h
    rw [List.cons_append, List.dropWhile_cons]
    rw [h x (List.mem_cons_self x t)]
    simp only [if_true]
    exact ih (fun z hz => h z (List.mem_cons_of_mem _ hz))

theorem dropWhile_all_false {p : Char → Bool} {s : Str}
    (h : ∀ x ∈ s, p x = false) : s.dropWhile p = s := by
  cases s with
  | nil => rfl
  | cons x xs =>
    rw [List.dropWhile_cons, h x (List.mem_cons_self x xs)]
    simp

theorem filter_all_true {p : Char → Bool} {s : Str}
    (h : ∀ x ∈ s, p x = true) : s.filter p = s :=
  List.filter_eq_self.mpr h

theorem dropWhile_dropWhile (pr : Char → Bool) (s : Str) :
    (s.dropWhile pr).dropWhile pr = s.dropWhile pr := by
  induction s with
  | nil => rfl
  | cons x xs ih =>
    by_cases hx : pr x = true
    · simp [List.dropWhile_cons, hx, ih]
    · simp [List.dropWhile_cons, hx]

theorem rstripP_append_takeWhile (pr : Char → Bool) (s : Str) :
    rstripP pr s ++ (s.reverse.takeWhile pr).reverse = s := by
  rw [rstripP, ← List.reverse_append, List.takeWhile_append_dropWhile,
    List.reverse_reverse]

theorem mem_rstripP {pr : Char → Bool} {s : Str} {x : Char}
    (h : x ∈ rstripP pr s) : x ∈ s := by
  rw [← rstripP_append_takeWhile pr s]
  exact List.mem_append_left _ h

theorem rstripP_idem (pr : Char → Bool) (s : Str) :
    rstripP pr (rstripP pr s) = rstripP pr s := by
  rw [rstripP, rstripP, List.reverse_reverse, dropWhile_dropWhile]

theorem rstripP_take_one {pr : Char → Bool} {x : Char} {s : Str}
    (h : s.take 1 = [x]) :
    rstripP pr s = [] ∨ (rstripP pr s).take 1 = [x] := by
  cases hr : rstripP pr s with
  | nil => exact Or.inl rfl
  | cons y t =>
    right
    have happ := rstripP_append_takeWhile pr s
    rw [hr] at happ
    cases s with
    | nil => simp at h
    | cons z zs =>
      have hz : z = x := by simpa using h
      have hy : y = z := by
        have := congrArg (fun l : Str => l.take 1) happ
        simpa using this
      simp [hy, hz]

theorem pyLower_append (s t : Str) :
    pyLower (s ++ t) = pyLower s ++ pyLower t := by
  simp [pyLower]

/-- Characters with equal code points are equal. -/
theorem char_eq_of_toNat_eq {c d : Char} (h : c.toNat = d.toNat) : c = d := by
  have h1 := Char.ofNat_toNat c
  rw [h, Char.ofNat_toNat] at h1
  exact h1.symm

theorem pyCharLower_eq_self {c : Char}
    (h : ¬ (65 ≤ c.toNat ∧ c.toNat ≤ 90)) : pyCharLower c = c := by
  have htab : ∀ p ∈ upperLowerTable, 65 ≤ p.1.toNat ∧ p.1.toNat ≤ 90 := by
    decide
  apply pyCharLower_of_find?_none
  rw [List.find?_eq_none]
  intro p hp
  simp only [decide_eq_true_eq]
  intro hc
  exact h (hc ▸ htab p hp)

theorem pyLower_eq_self {s : Str}
    (h : ∀ c ∈ s, ¬ (65 ≤ c.toNat ∧ c.toNat ≤ 90)) : pyLower s = s := by
  induction s with
  | nil => rfl
  | cons x xs ih =>
    rw [pyLower, List.map_cons,
      pyCharLower_eq_self (h x (List.mem_cons_self x xs))]
    exact congrArg _ (ih (fun c hc => h c (List.mem_cons_of_mem _ hc)))

/-! ## C9: character-class facts -/

theorem hostChar_spec {c : Char} (h : hostChar c = true) :
    32 < c.toNat ∧ ¬ (65 ≤ c.toNat ∧ c.toNat ≤ 90) ∧ c.toNat ≠ 47 ∧
      c.toNat ≠ 63 ∧ c.toNat ≠ 35 ∧ c.toNat ≠ 58 := by
  simp only [hostChar, lowerAlpha, isAsciiDigit, Bool.or_eq_true,
    decide_eq_true_eq] at h
  omega

theorem pathChar_spec {c : Char} (h : pathChar c = true) :
    32 < c.toNat ∧ ¬ (65 ≤ c.toNat ∧ c.toNat ≤ 90) ∧ c.toNat ≠ 63 ∧
      c.toNat ≠ 35 ∧ c.toNat ≠ 59 ∧ c.toNat ≠ 58 := by
  simp only [pathChar, lowerAlpha, isAsciiDigit, Bool.or_eq_true,
    decide_eq_true_eq] at h
  omega

theorem queryChar_spec {c : Char} (h : queryChar c = true) :
    qParseOK c = true ∧ ¬ (65 ≤ c.toNat ∧ c.toNat ≤ 90) ∧
      c.toNat ≠ 37 := by
  simp only [queryChar, lowerAlpha, isAsciiDigit, Bool.or_eq_true,
    decide_eq_true_eq] at h
  simp only [qParseOK, Bool.and_eq_true, decide_eq_true_eq]
  omega

/-- `pyCharLower` either fixes a character or yields a lower-case letter. -/
theorem pyCharLower_cases (c : Char) :
    pyCharLower c = c ∨
      (97 ≤ (pyCharLower c).toNat ∧ (pyCharLower c).toNat ≤ 122) := by
  have htab : ∀ p ∈ upperLowerTable,
      97 ≤ p.2.toNat ∧ p.2.toNat ≤ 122 := by decide
  cases hf : upperLowerTable.find? (fun q => q.1 = c) with
  | none => exact Or.inl (pyCharLower_of_find?_none hf)
  | some p =>
    right
    rw [pyCharLower_of_find?_some hf]
    exact htab p (List.mem_of_find?_eq_some hf)

/-- The numeric content of `isAlwaysSafe`. -/
theorem isAlwaysSafe_toNat {c : Char} (h : isAlwaysSafe c = true) :
    (97 ≤ c.toNat ∧ c.toNat ≤ 122) ∨ (65 ≤ c.toNat ∧ c.toNat ≤ 90) ∨
      (48 ≤ c.toNat ∧ c.toNat ≤ 57) ∨ c.toNat = 95 ∨ c.toNat = 46 ∨
      c.toNat = 45 ∨ c.toNat = 126 := by
  simp only [isAlwaysSafe, isAsciiAlpha, isAsciiDigit, Bool.or_eq_true,
    decide_eq_true_eq] at h
  rcases h with (h | h) | h | h | h | h | h
  · exact Or.inl h
  · exact Or.inr (Or.inl h)
  · exact Or.inr (Or.inr (Or.inl h))
  · exact Or.inr (Or.inr (Or.inr (Or.inl (by rw [h]; decide))))
  · exact Or.inr (Or.inr (Or.inr (Or.inr (Or.inl (by rw [h]; decide)))))
  · exact Or.inr (Or.inr (Or.inr (Or.inr (Or.inr (Or.inl (by rw [h]; decide))))))
  · exact Or.inr (Or.inr (Or.inr (Or.inr (Or.inr (Or.inr (by rw [h]; decide))))))

theorem dChar_spec {c : Char} (h : dChar c = true) :
    isAlwaysSafe c = true ∨ c = ' ' ∨ c = '=' := by
  simp only [dChar, lowerAlpha, isAsciiDigit, Bool.or_eq_true,
    decide_eq_true_eq] at h
  rcases h with h | h | h | h | h | h | h | h
  · exact Or.inl (by simp [isAlwaysSafe, isAsciiAlpha]; omega)
  · exact Or.inl (by simp [isAlwaysSafe, isAsciiDigit]; omega)
  · exact Or.inr (Or.inr (char_eq_of_toNat_eq (by rw [h]; decide)))
  · exact Or.inr (Or.inl (char_eq_of_toNat_eq (by rw [h]; decide)))
  · exact Or.inl (by
      have : c = '.' := char_eq_of_toNat_eq (by rw [h]; decide)
      rw [this]; decide)
  · exact Or.inl (by
      have : c = '-' := char_eq_of_toNat_eq (by rw [h]; decide)
      rw [this]; decide)
  · exact Or.inl (by
      have : c = '_' := char_eq_of_toNat_eq (by rw [h]; decide)
      rw [this]; decide)
  · exact Or.inl (by
      have : c = '~' := char_eq_of_toNat_eq (by rw [h]; decide)
      rw [this]; decide)

/-! ## C9: parsing a well-formed URL -/

theorem rstripP_all_false {pr : Char → Bool} {s : Str}
    (h : ∀ x ∈ s, pr x = false) : rstripP pr s = s := by
  rw [rstripP, dropWhile_all_false (fun x hx => h x (List.mem_reverse.mp hx)),
    List.reverse_reverse]

theorem dropWhile_all_true {p : Char → Bool} :
    ∀ {s : Str}, (∀ x ∈ s, p x = true) → s.dropWhile p = [] := by
  intro s
  induction s with
  | nil => intro _; rfl
  | cons x xs ih =>
    intro h
    rw [List.dropWhile_cons, h x (List.mem_cons_self x xs)]
    simpa using ih (fun y hy => h y (List.mem_cons_of_mem _ hy))

/-- Tameness consequences of a code point above 32. -/
theorem tame_of_gt32 {c : Char} (h : 32 < c.toNat) :
    isC0OrSpace c = false ∧ (¬ (c = '\t' ∨ c = '\r' ∨ c = '\n') : Bool) = true := by
  constructor
  · simp only [isC0OrSpace, decide_eq_false_iff_not]
    omega
  · simp only [decide_eq_true_eq]
    rintro (rfl | rfl | rfl) <;> exact absurd h (by decide)

/-- The netloc scan predicate holds on host characters. -/
theorem hostChar_netlocPred {c : Char} (h : hostChar c = true) :
    (¬ (c = '/' ∨ c = '?' ∨ c = '#') : Bool) = true := by
  obtain ⟨_, _, h47, h63, h35, _⟩ := hostChar_spec h
  simp only [decide_eq_true_eq]
  rintro (rfl | rfl | rfl)
  · exact h47 (by decide)
  · exact h63 (by decide)
  · exact h35 (by decide)

/-- Character tameness over all of a well-formed `mkUrl`. -/
theorem mkUrl_gt32 {host path : Str} {q : Option Str}
    (hhc : ∀ c ∈ host, hostChar c = true)
    (hpc : ∀ c ∈ path, pathChar c = true)
    (hqc : ∀ qs, q = some qs → ∀ c ∈ qs, qParseOK c = true) :
    ∀ c ∈ mkUrl host path q, 32 < c.toNat := by
  intro c hc
  rw [mkUrl.eq_def] at hc
  rcases List.mem_append.mp hc with hc | hc
  · rcases List.mem_append.mp hc with hc | hc
    · rcases List.mem_append.mp hc with hc | hc
      · fin_cases hc <;> decide
      · exact (hostChar_spec (hhc c hc)).1
    · exact (pathChar_spec (hpc c hc)).1
  · cases hq : q with
    | none => rw [hq] at hc; simp at hc
    | some qs =>
      rw [hq] at hc
      rcases List.mem_cons.mp hc with rfl | hc
      · decide
      · have := hqc qs hq c hc
        simp only [qParseOK, Bool.and_eq_true, decide_eq_true_eq] at this
        exact this.2

theorem urlsplit_mkUrl (host path : Str) (q : Option Str)
    (hhc : ∀ c ∈ host, hostChar c = true)
    (hpc : ∀ c ∈ path, pathChar c = true)
    (hp0 : path = [] ∨ path.take 1 = ['/'])
    (hqc : ∀ qs, q = some qs → ∀ c ∈ qs, qParseOK c = true) :
    urlsplit (mkUrl host path q) =
      ⟨"http".toList, host, path, q.getD [], []⟩ := by
  have hgt := mkUrl_gt32 hhc hpc hqc
  have hq35 : ∀ qs, q = some qs → ∀ c ∈ qs, ¬ c = '#' := by
    intro qs hqs c hc hcontra
    have := hqc qs hqs c hc
    rw [hcontra] at this
    exact absurd this (by decide)
  have hp35 : ∀ c ∈ path, ¬ c = '#' := fun c hc hcontra =>
    (pathChar_spec (hpc c hc)).2.2.2.1 (by rw [hcontra]; decide)
  have hp63 : ∀ c ∈ path, ¬ c = '?' := fun c hc hcontra =>
    (pathChar_spec (hpc c hc)).2.2.1 (by rw [hcontra]; decide)
  -- netloc extraction over `host ++ tail`
  have hnet : ∀ (tail : Str),
      (tail = [] ∨
        (¬ (tail.headD ' ' = '/' ∨ tail.headD ' ' = '?' ∨
          tail.headD ' ' = '#') : Bool) = false) →
      ((host ++ tail).takeWhile
          (fun c => ¬ (c = '/' ∨ c = '?' ∨ c = '#')) = host ∧
        (host ++ tail).dropWhile
          (fun c => ¬ (c = '/' ∨ c = '?' ∨ c = '#')) = tail) := by
    intro tail htail
    rcases htail with rfl | hstop
    · rw [List.append_nil]
      exact ⟨takeWhile_all (fun c hc => hostChar_netlocPred (hhc c hc)),
        dropWhile_all_true (fun c hc => hostChar_netlocPred (hhc c hc))⟩
    · cases tail with
      | nil =>
        rw [List.append_nil]
        exact ⟨takeWhile_all (fun c hc => hostChar_netlocPred (hhc c hc)),
          dropWhile_all_true (fun c hc => hostChar_netlocPred (hhc c hc))⟩
      | cons y ys =>
        have hy : (¬ (y = '/' ∨ y = '?' ∨ y = '#') : Bool) = false := by
          simpa using hstop
        exact ⟨takeWhile_append_stop hy
            (fun c hc => hostChar_netlocPred (hhc c hc)),
          dropWhile_append_stop hy
            (fun c hc => hostChar_netlocPred (hhc c hc))⟩
  rcases q with _ | qs
  · -- no query component
    have hmk : mkUrl host path none =
        "http".toList ++ ':' :: ('/' :: '/' :: (host ++ path)) := by
      rw [mkUrl.eq_def]
      simp only [List.append_assoc, List.append_nil]
      rfl
    rw [hmk] at hgt
    unfold urlsplit
    simp only []
    rw [hmk,
      dropWhile_all_false (fun x hx => (tame_of_gt32 (hgt x hx)).1),
      rstripP_all_false (fun x hx => (tame_of_gt32 (hgt x hx)).1),
      filter_all_true (fun x hx => (tame_of_gt32 (hgt x hx)).2),
      splitFirst_append (by decide)]
    simp only
    rw [if_pos ⟨by decide, by decide, by decide⟩]
    simp only
    rw [show pyLower "http".toList = "http".toList from rfl]
    rw [if_pos (by simp)]
    simp only [List.drop_succ_cons, List.drop_zero]
    have hstop : path = [] ∨
        (¬ (path.headD ' ' = '/' ∨ path.headD ' ' = '?' ∨
          path.headD ' ' = '#') : Bool) = false := by
      rcases hp0 with hp | hp
      · exact Or.inl hp
      · right
        cases path with
        | nil => simp at hp
        | cons z zs =>
          have : z = '/' := by simpa using hp
          simp [this]
    rw [(hnet path hstop).1, (hnet path hstop).2,
      splitFirst_of_not_mem (fun hc => hp35 '#' hc rfl)]
    simp only
    rw [splitFirst_of_not_mem (fun hc => hp63 '?' hc rfl)]
    simp only
    rfl
  · -- query component present
    have hmk : mkUrl host path (some qs) =
        "http".toList ++ ':' :: ('/' :: '/' ::
          (host ++ (path ++ '?' :: qs))) := by
      rw [mkUrl.eq_def]
      simp only [List.append_assoc]
      rfl
    rw [hmk] at hgt
    unfold urlsplit
    simp only []
    rw [hmk,
      dropWhile_all_false (fun x hx => (tame_of_gt32 (hgt x hx)).1),
      rstripP_all_false (fun x hx => (tame_of_gt32 (hgt x hx)).1),
      filter_all_true (fun x hx => (tame_of_gt32 (hgt x hx)).2),
      splitFirst_append (by decide)]
    simp only
    rw [if_pos ⟨by decide, by decide, by decide⟩]
    simp only
    rw [show pyLower "http".toList = "http".toList from rfl]
    rw [if_pos (by simp)]
    simp only [List.drop_succ_cons, List.drop_zero]
    have hstop : (path ++ '?' :: qs) = [] ∨
        (¬ ((path ++ '?' :: qs).headD ' ' = '/' ∨
          (path ++ '?' :: qs).headD ' ' = '?' ∨
          (path ++ '?' :: qs).headD ' ' = '#') : Bool) = false := by
      right
      rcases hp0 with hp | hp
      · subst hp
        simp
      · cases path with
        | nil => simp at hp
        | cons z zs =>
          have : z = '/' := by simpa using hp
          simp [this]
    have hfrag : '#' ∉ path ++ '?' :: qs := by
      intro hc
      rcases List.mem_append.mp hc with hc | hc
      · exact hp35 '#' hc rfl
      · rcases List.mem_cons.mp hc with hc | hc
        · exact absurd hc (by decide)
        · exact hq35 qs rfl '#' hc rfl
    rw [(hnet (path ++ '?' :: qs) hstop).1,
      (hnet (path ++ '?' :: qs) hstop).2,
      splitFirst_of_not_mem hfrag]
    simp only
    rw [splitFirst_append (fun hc => hp63 '?' hc rfl)]
    simp only
    rfl

theorem urlparse_mkUrl (host path : Str) (q : Option Str)
    (hhc : ∀ c ∈ host, hostChar c = true)
    (hpc : ∀ c ∈ path, pathChar c = true)
    (hp0 : path = [] ∨ path.take 1 = ['/'])
    (hqc : ∀ qs, q = some qs → ∀ c ∈ qs, qParseOK c = true) :
    urlparse (mkUrl host path q) =
      ⟨"http".toList, host, path, [], q.getD [], []⟩ := by
  have hsemi : ¬ (';' ∈ path) := fun hc =>
    (pathChar_spec (hpc ';' hc)).2.2.2.2.1 (by decide)
  unfold urlparse
  rw [urlsplit_mkUrl host path q hhc hpc hp0 hqc]
  simp only []
  rw [if_neg (fun hcond => absurd hcond.2 (by simpa using hsemi))]

/-! ## C9: the query encode/decode machinery -/

theorem splitOnChar_of_not_mem {c : Char} :
    ∀ {s : Str}, c ∉ s → splitOnChar c s = [s] := by
  intro s
  induction s with
  | nil => intro _; rfl
  | cons x xs ih =>
    intro h
    have hx : ¬ x = c := fun hc => h (hc ▸ List.mem_cons_self x xs)
    rw [splitOnChar, if_neg hx, ih (fun hc => h (List.mem_cons_of_mem _ hc))]

theorem splitOnChar_append {c : Char} {ys : Str} :
    ∀ {xs : Str}, c ∉ xs →
      splitOnChar c (xs ++ c :: ys) = xs :: splitOnChar c ys := by
  intro xs
  induction xs with
  | nil => intro _; simp [splitOnChar]
  | cons x t ih =>
    intro h
    have hx : ¬ x = c := fun hc => h (hc ▸ List.mem_cons_self x t)
    rw [List.cons_append, splitOnChar, if_neg hx,
      ih (fun hc => h (List.mem_cons_of_mem _ hc))]

theorem unquote_cons_ne_pct {c : Char} (hc : ¬ c = '%') (t : Str) :
    unquote (c :: t) = c :: unquote t := by
  rw [unquote.eq_def]
  split
  · simp_all
  · rename_i heq
    rw [List.cons.injEq] at heq
    exact absurd heq.1 hc
  · rename_i heq
    rw [List.cons.injEq] at heq
    rw [heq.1, heq.2]

theorem unquote_pct {a b : Char} {x y : Nat} (ha : hexVal? a = some x)
    (hb : hexVal? b = some y) (t : Str) :
    unquote ('%' :: a :: b :: t) = Char.ofNat (16 * x + y) :: unquote t := by
  rw [unquote.eq_def]
  simp only [ha, hb]

theorem unquote_id {s : Str} (h : ∀ c ∈ s, ¬ c = '%') : unquote s = s := by
  induction s with
  | nil => rfl
  | cons c t ih =>
    rw [unquote_cons_ne_pct (h c (List.mem_cons_self c t)) t,
      ih (fun x hx => h x (List.mem_cons_of_mem _ hx))]

theorem utf8Bytes_ne_nil (c : Char) : utf8Bytes c ≠ [] := by
  rw [utf8Bytes]
  split
  · simp
  · split
    · simp
    · split <;> simp

theorem quotePlus_cons (c : Char) (v : Str) :
    quotePlus (c :: v) = qpChunk c ++ quotePlus v := by
  rw [quotePlus, quotePlus, qpChunk, List.map_cons, List.flatten_cons]

theorem quotePlus_ne_nil {v : Str} (h : v ≠ []) : quotePlus v ≠ [] := by
  cases v with
  | nil => exact absurd rfl h
  | cons c t =>
    rw [quotePlus_cons]
    intro hc
    rcases List.append_eq_nil.mp hc with ⟨h1, _⟩
    rw [qpChunk] at h1
    revert h1
    split
    · simp
    · split
      · simp
      · intro h1
        rcases List.flatten_eq_nil_iff.mp h1 with hall
        have hb := utf8Bytes_ne_nil c
        cases hu : utf8Bytes c with
        | nil => exact hb hu
        | cons b bs =>
          have : pctEncodeByte b = [] := by
            apply hall
            rw [hu, List.map_cons]
            exact List.mem_cons_self _ _
          simp [pctEncodeByte] at this

/-- Numeric facts about `dChar`: no upper-case letters, no `+`, no `%`,
no `&`. -/
theorem dChar_toNat {c : Char} (h : dChar c = true) :
    ¬ (65 ≤ c.toNat ∧ c.toNat ≤ 90) ∧ c.toNat ≠ 43 ∧ c.toNat ≠ 37 ∧
      c.toNat ≠ 38 := by
  simp only [dChar, lowerAlpha, isAsciiDigit, Bool.or_eq_true,
    decide_eq_true_eq] at h
  omega

theorem getD_mem_or_default {α : Type} (l : List α) (n : Nat) (d : α) :
    l.getD n d ∈ l ∨ l.getD n d = d := by
  cases hn : l.get? n with
  | none =>
    right
    simp [List.getD_eq_getElem?_getD, ← List.get?_eq_getElem?, hn]
  | some x =>
    left
    have hx : x ∈ l := List.get?_mem hn
    have : l.getD n d = x := by
      simp [List.getD_eq_getElem?_getD, ← List.get?_eq_getElem?, hn]
    rw [this]
    exact hx

theorem hexDigitUpper_facts (k : Nat) :
    32 < (hexDigitUpper k).toNat ∧ (hexDigitUpper k).toNat ≠ 35 ∧
      (hexDigitUpper k).toNat ≠ 38 ∧ (hexDigitUpper k).toNat ≠ 61 ∧
      (hexDigitUpper k).toNat ≠ 43 := by
  have hset : ∀ x ∈ ['0', '1', '2', '3', '4', '5', '6', '7', '8', '9',
      'A', 'B', 'C', 'D', 'E', 'F'],
      32 < Char.toNat x ∧ Char.toNat x ≠ 35 ∧ Char.toNat x ≠ 38 ∧
        Char.toNat x ≠ 61 ∧ Char.toNat x ≠ 43 := by decide
  rcases getD_mem_or_default
      ['0', '1', '2', '3', '4', '5', '6', '7', '8', '9',
       'A', 'B', 'C', 'D', 'E', 'F'] k '0' with hm | hd
  · rw [hexDigitUpper]
    exact hset _ hm
  · rw [hexDigitUpper, hd]
    exact hset '0' (by decide)

theorem pyLower_cons (c : Char) (t : Str) :
    pyLower (c :: t) = pyCharLower c :: pyLower t := rfl

theorem plusToSpace_cons (c : Char) (t : Str) :
    plusToSpace (c :: t) = (if c = '+' then ' ' else c) :: plusToSpace t :=
  rfl

/-- Everything `quote_plus` emits is printable and is none of `#`, `&`,
`=`. -/
theorem quotePlus_chars {v : Str} {x : Char} (hx : x ∈ quotePlus v) :
    32 < x.toNat ∧ x.toNat ≠ 35 ∧ x.toNat ≠ 38 ∧ x.toNat ≠ 61 := by
  induction v with
  | nil => simp [quotePlus] at hx
  | cons c t ih =>
    rw [quotePlus_cons] at hx
    rcases List.mem_append.mp hx with hx | hx
    · rw [qpChunk] at hx
      split at hx
      · rename_i hsafe
        rcases List.mem_singleton.mp hx with rfl
        rcases isAlwaysSafe_toNat hsafe with h | h | h | h | h | h | h <;>
          omega
      · split at hx
        · rcases List.mem_singleton.mp hx with rfl
          refine ⟨by decide, by decide, by decide, by decide⟩
        · rcases List.mem_flatten.mp hx with ⟨chunk, hch, hxc⟩
          rcases List.mem_map.mp hch with ⟨b, _, rfl⟩
          rw [pctEncodeByte] at hxc
          rcases List.mem_cons.mp hxc with rfl | hxc
          · refine ⟨by decide, by decide, by decide, by decide⟩
          · rcases List.mem_cons.mp hxc with rfl | hxc
            · have := hexDigitUpper_facts (b / 16 % 16)
              exact ⟨this.1, this.2.1, this.2.2.1, this.2.2.2.1⟩
            · rcases List.mem_cons.mp hxc with rfl | hxc
              · have := hexDigitUpper_facts (b % 16)
                exact ⟨this.1, this.2.1, this.2.2.1, this.2.2.2.1⟩
              · simp at hxc
    · exact ih hx

/-- The decode of the lower-cased re-encoding of a decoded value is the
value itself: the core roundtrip of the idempotency proof. -/
theorem decode_roundtrip {v : Str} (h : ∀ c ∈ v, dChar c = true) :
    unquote (plusToSpace (pyLower (quotePlus v))) = v := by
  induction v with
  | nil => rfl
  | cons c t ih =>
    have hc := h c (List.mem_cons_self c t)
    have hrest := ih (fun x hx => h x (List.mem_cons_of_mem _ hx))
    obtain ⟨hnoup, h43, h37, _⟩ := dChar_toNat hc
    rw [quotePlus_cons]
    rcases dChar_spec hc with hsafe | rfl | rfl
    · rw [qpChunk, if_pos hsafe, List.singleton_append, pyLower_cons,
        pyCharLower_eq_self hnoup, plusToSpace_cons,
        if_neg (fun hcc => h43 (by rw [hcc]; decide)),
        unquote_cons_ne_pct (fun hcc => h37 (by rw [hcc]; decide)), hrest]
    · rw [qpChunk, if_neg (by decide), if_pos rfl, List.singleton_append,
        pyLower_cons, show pyCharLower '+' = '+' from by decide,
        plusToSpace_cons, if_pos rfl, unquote_cons_ne_pct (by decide),
        hrest]
    · rw [qpChunk, if_neg (by decide), if_neg (by decide),
        show ((utf8Bytes '=').map pctEncodeByte).flatten =
          ['%', '3', 'D'] from by decide,
        show (['%', '3', 'D'] : Str) ++ quotePlus t =
          '%' :: '3' :: 'D' :: quotePlus t from rfl,
        pyLower_cons, pyLower_cons, pyLower_cons,
        show pyCharLower '%' = '%' from by decide,
        show pyCharLower '3' = '3' from by decide,
        show pyCharLower 'D' = 'd' from by decide,
        plusToSpace_cons, plusToSpace_cons, plusToSpace_cons,
        if_neg (by decide), if_neg (by decide), if_neg (by decide),
        unquote_pct (show hexVal? '3' = some 3 from by decide)
          (show hexVal? 'd' = some 13 from by decide),
        show Char.ofNat (16 * 3 + 13) = '=' from by decide, hrest]

theorem pyLower_quotePlus_chars {v : Str} {x : Char}
    (hx : x ∈ pyLower (quotePlus v)) :
    32 < x.toNat ∧ x.toNat ≠ 35 ∧ x.toNat ≠ 38 ∧ x.toNat ≠ 61 := by
  rcases List.mem_map.mp hx with ⟨y, hy, rfl⟩
  have hf := quotePlus_chars hy
  rcases pyCharLower_cases y with hc | hc
  · rw [hc]
    exact hf
  · exact ⟨by omega, by omega, by omega, by omega⟩

theorem amp_not_mem_lower_qp (v : Str) : '&' ∉ pyLower (quotePlus v) :=
  fun hc => (pyLower_quotePlus_chars hc).2.2.1 (by decide)

theorem eq_not_mem_lower_qp (v : Str) : '=' ∉ pyLower (quotePlus v) :=
  fun hc => (pyLower_quotePlus_chars hc).2.2.2 (by decide)

theorem pyLower_ne_nil {s : Str} (h : s ≠ []) : pyLower s ≠ [] := by
  cases s with
  | nil => exact absurd rfl h
  | cons c t => simp [pyLower]

/-- The lower-cased encoding of one `k=v` field. -/
theorem pyLower_chunk (k v : Str) :
    pyLower (quotePlus k ++ '=' :: quotePlus v) =
      pyLower (quotePlus k) ++ '=' :: pyLower (quotePlus v) := by
  rw [pyLower_append, pyLower_cons, show pyCharLower '=' = '=' from by decide]

/-- `parse_qsl` recovers one decoded field from its lower-cased encoding. -/
theorem parse_qsl_one_chunk (k v : Str)
    (hk : ∀ c ∈ k, dChar c = true) (hv : ∀ c ∈ v, dChar c = true)
    (hvne : v ≠ []) :
    parse_qsl (pyLower (quotePlus k) ++ '=' :: pyLower (quotePlus v)) =
      [(k, v)] := by
  have hamp : '&' ∉ pyLower (quotePlus k) ++ '=' :: pyLower (quotePlus v) := by
    intro hc
    rcases List.mem_append.mp hc with hc | hc
    · exact amp_not_mem_lower_qp k hc
    · rcases List.mem_cons.mp hc with hc | hc
      · exact absurd hc (by decide)
      · exact amp_not_mem_lower_qp v hc
  have hne : pyLower (quotePlus k) ++ '=' :: pyLower (quotePlus v) ≠ [] := by
    simp
  rw [parse_qsl, splitOnChar_of_not_mem hamp, List.filterMap_cons]
  rw [if_neg hne, splitFirst_append (eq_not_mem_lower_qp k)]
  simp only []
  rw [if_neg (pyLower_ne_nil (quotePlus_ne_nil hvne))]
  rw [show unquote (plusToSpace (pyLower (quotePlus k))) = k from
      decode_roundtrip hk,
    show unquote (plusToSpace (pyLower (quotePlus v))) = v from
      decode_roundtrip hv]
  rfl

theorem intercalate_amp_cons (a b : Str) (t : List Str) :
    List.intercalate ['&'] (a :: b :: t) =
      a ++ '&' :: List.intercalate ['&'] (b :: t) := by
  simp [List.intercalate, List.intersperse]

/-- `parse_qsl` of the lower-cased `urlencode` of a flat pair list recovers
the pairs. -/
theorem parse_qsl_encodeFlat :
    ∀ (ps : List (Str × Str)),
      (∀ kv ∈ ps, (∀ c ∈ kv.1, dChar c = true) ∧
        (∀ c ∈ kv.2, dChar c = true) ∧ kv.2 ≠ []) →
      parse_qsl (pyLower (List.intercalate ['&']
        (ps.map (fun kv => quotePlus kv.1 ++ '=' :: quotePlus kv.2)))) =
        ps := by
  intro ps
  induction ps with
  | nil => intro _; rfl
  | cons kv rest ih =>
    intro h
    obtain ⟨hk, hv, hvne⟩ := h kv (List.mem_cons_self kv rest)
    cases rest with
    | nil =>
      rw [List.map_cons, List.map_nil,
        show List.intercalate ['&']
          [quotePlus kv.1 ++ '=' :: quotePlus kv.2] =
          quotePlus kv.1 ++ '=' :: quotePlus kv.2 from by
            simp [List.intercalate, List.intersperse],
        pyLower_chunk, parse_qsl_one_chunk kv.1 kv.2 hk hv hvne]
    | cons kv2 rest2 =>
      have hihres := ih (fun x hx => h x (List.mem_cons_of_mem _ hx))
      rw [List.map_cons, List.map_cons, intercalate_amp_cons, pyLower_append,
        pyLower_cons, show pyCharLower '&' = '&' from by decide,
        pyLower_chunk]
      have hamp1 : '&' ∉ pyLower (quotePlus kv.1) ++ '=' ::
          pyLower (quotePlus kv.2) := by
        intro hc
        rcases List.mem_append.mp hc with hc | hc
        · exact amp_not_mem_lower_qp kv.1 hc
        · rcases List.mem_cons.mp hc with hc | hc
          · exact absurd hc (by decide)
          · exact amp_not_mem_lower_qp kv.2 hc
      rw [parse_qsl, splitOnChar_append hamp1, List.filterMap_cons]
      have hone := parse_qsl_one_chunk kv.1 kv.2 hk hv hvne
      rw [parse_qsl, splitOnChar_of_not_mem hamp1, List.filterMap_cons] at hone
      simp only [List.filterMap_nil] at hone
      rcases hf : (if pyLower (quotePlus kv.1) ++ '=' ::
          pyLower (quotePlus kv.2) = [] then none
        else match splitFirst '='
          (pyLower (quotePlus kv.1) ++ '=' :: pyLower (quotePlus kv.2)) with
        | (_, none) => none
        | (name, some value) =>
          if value = [] then none
          else some (unquote (plusToSpace name),
            unquote (plusToSpace value))) with _ | p
      · rw [hf] at hone
        simp at hone
      · rw [hf] at hone
        simp only [List.cons.injEq] at hone
        rw [hone.1]
        rw [List.map_cons] at hihres
        rw [parse_qsl] at hihres
        rw [hihres]

theorem mem_splitOnChar_subset {c : Char} :
    ∀ {s : Str} {piece : Str}, piece ∈ splitOnChar c s →
      ∀ x ∈ piece, x ∈ s := by
  intro s
  induction s with
  | nil =>
    intro piece hp x hx
    rw [splitOnChar] at hp
    rcases List.mem_singleton.mp hp with rfl
    simp at hx
  | cons y ys ih =>
    intro piece hp x hx
    rw [splitOnChar] at hp
    by_cases hy : y = c
    · rw [if_pos hy] at hp
      rcases List.mem_cons.mp hp with rfl | hp
      · simp at hx
      · exact List.mem_cons_of_mem _ (ih hp x hx)
    · rw [if_neg hy] at hp
      rcases hsp : splitOnChar c ys with _ | ⟨hpc, tl⟩
      · rw [hsp] at hp
        rcases List.mem_singleton.mp hp with rfl
        rcases List.mem_singleton.mp hx with rfl
        exact List.mem_cons_self _ _
      · rw [hsp] at hp
        rcases List.mem_cons.mp hp with rfl | hp
        · rcases List.mem_cons.mp hx with rfl | hx
          · exact List.mem_cons_self _ _
          · exact List.mem_cons_of_mem _
              (ih (hsp ▸ List.mem_cons_self hpc tl) x hx)
        · exact List.mem_cons_of_mem _
            (ih (hsp ▸ List.mem_cons_of_mem _ hp) x hx)

theorem mem_splitOnChar_no_sep {c : Char} :
    ∀ {s : Str} {piece : Str}, piece ∈ splitOnChar c s → c ∉ piece := by
  intro s
  induction s with
  | nil =>
    intro piece hp
    rw [splitOnChar] at hp
    rcases List.mem_singleton.mp hp with rfl
    simp
  | cons y ys ih =>
    intro piece hp
    rw [splitOnChar] at hp
    by_cases hy : y = c
    · rw [if_pos hy] at hp
      rcases List.mem_cons.mp hp with rfl | hp
      · simp
      · exact ih hp
    · rw [if_neg hy] at hp
      rcases hsp : splitOnChar c ys with _ | ⟨hpc, tl⟩
      · rw [hsp] at hp
        rcases List.mem_singleton.mp hp with rfl
        intro hc
        rcases List.mem_singleton.mp hc with rfl
        exact hy rfl
      · rw [hsp] at hp
        rcases List.mem_cons.mp hp with rfl | hp
        · intro hc
          rcases List.mem_cons.mp hc with rfl | hc
          · exact hy rfl
          · exact ih (hsp ▸ List.mem_cons_self hpc tl) hc
        · exact ih (hsp ▸ List.mem_cons_of_mem _ hp)

theorem splitFirst_fst_subset {c : Char} :
    ∀ {s : Str}, (∀ x ∈ (splitFirst c s).1, x ∈ s) := by
  intro s
  induction s with
  | nil => intro x hx; simp [splitFirst] at hx
  | cons y ys ih =>
    intro x hx
    rw [splitFirst] at hx
    by_cases hy : y = c
    · rw [if_pos hy] at hx
      simp at hx
    · rw [if_neg hy] at hx
      simp only [] at hx
      rcases List.mem_cons.mp hx with rfl | hx
      · exact List.mem_cons_self _ _
      · exact List.mem_cons_of_mem _ (ih x hx)

theorem splitFirst_snd_subset {c : Char} :
    ∀ {s : Str} {r : Str}, (splitFirst c s).2 = some r →
      ∀ x ∈ r, x ∈ s := by
  intro s
  induction s with
  | nil => intro r hr; simp [splitFirst] at hr
  | cons y ys ih =>
    intro r hr x hx
    rw [splitFirst] at hr
    by_cases hy : y = c
    · rw [if_pos hy] at hr
      simp only [Option.some.injEq] at hr
      exact List.mem_cons_of_mem _ (hr ▸ hx)
    · rw [if_neg hy] at hr
      simp only [] at hr
      exact List.mem_cons_of_mem _ (ih hr x hx)

/-- Every decoded pair of a `%`-free, `queryChar` query has `dChar` name
and value characters and a non-empty value. -/
theorem parse_qsl_entry_chars {q0 : Str}
    (hq : ∀ c ∈ q0, queryChar c = true) :
    ∀ kv ∈ parse_qsl q0, (∀ c ∈ kv.1, dChar c = true) ∧
      (∀ c ∈ kv.2, dChar c = true) ∧ kv.2 ≠ [] := by
  intro kv hkv
  rcases List.mem_filterMap.mp hkv with ⟨nv, hnv, hf⟩
  by_cases h0 : nv = []
  · simp [h0] at hf
  · rcases hsp : splitFirst '=' nv with ⟨name, rest⟩
    cases rest with
    | none => simp [h0, hsp] at hf
    | some value =>
      by_cases hval : value = []
      · simp [h0, hsp, hval] at hf
      · simp only [h0, if_false, hsp, hval] at hf
        have hkveq : kv = (unquote (plusToSpace name),
            unquote (plusToSpace value)) := (Option.some.inj hf).symm
        have hnvchars : ∀ x ∈ nv, queryChar x = true ∧ ¬ x = '&' := by
          intro x hx
          exact ⟨hq x (mem_splitOnChar_subset hnv x hx),
            fun hc => mem_splitOnChar_no_sep hnv (hc ▸ hx)⟩
        have hdecoded : ∀ (part : Str), (∀ x ∈ part, x ∈ nv) →
            (∀ c ∈ unquote (plusToSpace part), dChar c = true) := by
          intro part hpart
          have hnopct : ∀ c ∈ plusToSpace part, ¬ c = '%' := by
            intro c hc
            rcases List.mem_map.mp hc with ⟨y, hy, rfl⟩
            have hyq := (hnvchars y (hpart y hy)).1
            have := (queryChar_spec hyq).2.2
            by_cases hyp : y = '+'
            · rw [if_pos hyp]
              decide
            · rw [if_neg hyp]
              intro hcc
              exact this (by rw [hcc]; decide)
          rw [unquote_id hnopct]
          intro c hc
          rcases List.mem_map.mp hc with ⟨y, hy, rfl⟩
          have hyq := (hnvchars y (hpart y hy)).1
          have hyamp := (hnvchars y (hpart y hy)).2
          by_cases hyp : y = '+'
          · rw [if_pos hyp]
            decide
          · rw [if_neg hyp]
            have hyn : y.toNat ≠ 43 := fun hc43 =>
              hyp (char_eq_of_toNat_eq (by rw [hc43]; decide))
            have hyamp' : y.toNat ≠ 38 := fun hc38 =>
              hyamp (char_eq_of_toNat_eq (by rw [hc38]; decide))
            simp only [queryChar, lowerAlpha, isAsciiDigit,
              Bool.or_eq_true, decide_eq_true_eq] at hyq
            simp only [dChar, lowerAlpha, isAsciiDigit, Bool.or_eq_true,
              decide_eq_true_eq]
            omega
        rw [hkveq]
        refine ⟨hdecoded name (fun x hx => splitFirst_fst_subset x
            (by rw [hsp]; exact hx)), ?_, ?_⟩
        · exact hdecoded value (fun x hx => splitFirst_snd_subset
            (by rw [hsp]) x hx)
        · have hpm : plusToSpace value ≠ [] := by
            simpa [plusToSpace] using hval
          have hnopct : ∀ c ∈ plusToSpace value, ¬ c = '%' := by
            intro c hc
            rcases List.mem_map.mp hc with ⟨y, hy, rfl⟩
            have hyq := (hnvchars y (splitFirst_snd_subset
              (by rw [hsp]) y hy)).1
            have := (queryChar_spec hyq).2.2
            by_cases hyp : y = '+'
            · rw [if_pos hyp]
              decide
            · rw [if_neg hyp]
              intro hcc
              exact this (by rw [hcc]; decide)
          rw [unquote_id hnopct]
          exact hpm

theorem urlencode_eq_flat (G : List (Str × List Str)) :
    urlencode G = List.intercalate ['&']
      ((flattenPairs G).map
        (fun kv => quotePlus kv.1 ++ '=' :: quotePlus kv.2)) := by
  rw [urlencode, flattenPairs, List.map_flatten, List.map_map]
  congr 1
  congr 1
  apply List.map_congr_left
  intro kv _
  simp [List.map_map, Function.comp]

/-- Feeding the values of one key into the grouping loop extends that key's
entry in place. -/
theorem foldl_addPair_sameKey (k : Str) :
    ∀ (vs : List Str) (acc : List (Str × List Str)) (w : List Str),
      (∀ p ∈ acc, ¬ p.1 = k) →
      (vs.map (fun v => (k, v))).foldl addPair (acc ++ [(k, w)]) =
        acc ++ [(k, w ++ vs)] := by
  intro vs
  induction vs with
  | nil => intro acc w _; simp
  | cons v vs ih =>
    intro acc w hacc
    rw [List.map_cons, List.foldl_cons]
    have hany : (acc ++ [(k, w)]).any (fun p => p.1 = (k, v).1) = true := by
      apply List.any_eq_true.mpr
      exact ⟨(k, w), List.mem_append_right _ (List.mem_singleton_self _),
        by simp⟩
    have hmap : acc.map (fun p =>
        if p.1 = (k, v).1 then (p.1, p.2 ++ [(k, v).2]) else p) = acc := by
      conv_rhs => rw [← List.map_id acc]
      apply List.map_congr_left
      intro p hp
      rw [if_neg (hacc p hp)]
      rfl
    have hstep : addPair (acc ++ [(k, w)]) (k, v) =
        acc ++ [(k, w ++ [v])] := by
      rw [addPair, if_pos hany, List.map_append, hmap]
      simp
    rw [hstep, ih acc (w ++ [v]) hacc, List.append_assoc]
    simp

/-- The grouping loop reconstructs a grouped dictionary from its
flattening, provided keys are distinct and value lists non-empty. -/
theorem foldl_addPair_flatten :
    ∀ (G : List (Str × List Str)) (acc : List (Str × List Str)),
      (∀ p ∈ acc, ∀ kv ∈ G, ¬ p.1 = kv.1) →
      ((G.map Prod.fst).Nodup) →
      (∀ kv ∈ G, kv.2 ≠ []) →
      (flattenPairs G).foldl addPair acc = acc ++ G := by
  intro G
  induction G with
  | nil => intro acc _ _ _; simp [flattenPairs]
  | cons kv G' ih =>
    intro acc hdisj hnod hne
    rw [flattenPairs, List.map_cons, List.flatten_cons, List.foldl_append]
    obtain ⟨v0, vs, hv⟩ : ∃ v0 vs, kv.2 = v0 :: vs := by
      cases hk2 : kv.2 with
      | nil => exact absurd hk2 (hne kv (List.mem_cons_self kv G'))
      | cons v0 vs => exact ⟨v0, vs, rfl⟩
    have hkacc : ∀ p ∈ acc, ¬ p.1 = kv.1 :=
      fun p hp => hdisj p hp kv (List.mem_cons_self kv G')
    have hstep1 : addPair acc (kv.1, v0) = acc ++ [(kv.1, [v0])] := by
      rw [addPair, if_neg]
      intro hc
      rcases List.any_eq_true.mp hc with ⟨p, hp, hpk⟩
      exact hkacc p hp (by simpa using hpk)
    rw [hv, List.map_cons, List.foldl_cons, hstep1,
      foldl_addPair_sameKey kv.1 vs acc [v0] hkacc]
    have hres := ih (acc ++ [(kv.1, v0 :: vs)])
      (by
        intro p hp q hq
        rcases List.mem_append.mp hp with hp | hp
        · exact hdisj p hp q (List.mem_cons_of_mem _ hq)
        · rcases List.mem_singleton.mp hp with rfl
          intro hc
          rw [List.map_cons, List.nodup_cons] at hnod
          exact hnod.1 (hc ▸ List.mem_map.mpr ⟨q, hq, rfl⟩))
      (by rw [List.map_cons, List.nodup_cons] at hnod; exact hnod.2)
      (fun x hx => hne x (List.mem_cons_of_mem _ hx))
    rw [flattenPairs] at hres
    rw [show ([v0] : List Str) ++ vs = v0 :: vs from rfl, hres,
      List.append_assoc]
    have : kv = (kv.1, v0 :: vs) := by
      rw [← hv]
    rw [← this]
    rfl


/-! ## C9: stability of the re-encoded query under a second pass -/

/-- A character of an `&`-intercalation is the separator or a chunk
character. -/
theorem mem_intercalate_amp {x : Char} :
    ∀ {L : List Str}, x ∈ List.intercalate ['&'] L →
      x = '&' ∨ ∃ chunk ∈ L, x ∈ chunk := by
  intro L
  induction L with
  | nil => intro hx; simp [List.intercalate] at hx
  | cons a t ih =>
    cases t with
    | nil =>
      intro hx
      rw [show List.intercalate ['&'] [a] = a from by
        simp [List.intercalate, List.intersperse]] at hx
      exact Or.inr ⟨a, List.mem_cons_self a [], hx⟩
    | cons b t2 =>
      intro hx
      rw [intercalate_amp_cons] at hx
      rcases List.mem_append.mp hx with hx | hx
      · exact Or.inr ⟨a, List.mem_cons_self _ _, hx⟩
      · rcases List.mem_cons.mp hx with rfl | hx
        · exact Or.inl rfl
        · rcases ih hx with h | ⟨chunk, hc, hxc⟩
          · exact Or.inl h
          · exact Or.inr ⟨chunk, List.mem_cons_of_mem _ hc, hxc⟩

/-- Everything `urlencode` emits is parse-tame: printable and not `#`. -/
theorem urlencode_qParseOK (G : List (Str × List Str)) :
    ∀ x ∈ urlencode G, qParseOK x = true := by
  intro x hx
  rw [urlencode_eq_flat] at hx
  rcases mem_intercalate_amp hx with rfl | ⟨chunk, hc, hxc⟩
  · decide
  · rcases List.mem_map.mp hc with ⟨kv, _, rfl⟩
    simp only [qParseOK, Bool.and_eq_true, decide_eq_true_eq]
    rcases List.mem_append.mp hxc with hxc | hxc
    · have hf := quotePlus_chars hxc
      exact ⟨hf.2.1, hf.1⟩
    · rcases List.mem_cons.mp hxc with rfl | hxc
      · exact ⟨by decide, by decide⟩
      · have hf := quotePlus_chars hxc
        exact ⟨hf.2.1, hf.1⟩

/-- Entries of `parse_qs` on a `%`-free `queryChar` query: `dChar` keys and
`dChar` non-empty values. -/
theorem parse_qs_entry_chars {q0 : Str}
    (hq : ∀ c ∈ q0, queryChar c = true) :
    ∀ kv ∈ parse_qs q0, (∀ c ∈ kv.1, dChar c = true) ∧
      (∀ v ∈ kv.2, (∀ c ∈ v, dChar c = true) ∧ v ≠ []) := by
  intro kv hkv
  obtain ⟨hk, -, hv⟩ := foldl_addPair_spec (parse_qsl q0)
  constructor
  · have hmem : kv.1 ∈ ((parse_qsl q0).foldl addPair []).map Prod.fst :=
      List.mem_map.mpr ⟨kv, hkv, rfl⟩
    rcases List.mem_map.mp ((hk kv.1).mp hmem) with ⟨p, hp, hpk⟩
    intro c hc
    exact (parse_qsl_entry_chars hq p hp).1 c (hpk ▸ hc)
  · intro v hv2
    rw [hv kv.1 kv.2 hkv] at hv2
    rcases List.mem_map.mp hv2 with ⟨p, hp, hpv⟩
    have hpmem : p ∈ parse_qsl q0 := (List.mem_filter.mp hp).1
    have hfacts := parse_qsl_entry_chars hq p hpmem
    exact ⟨fun c hc => hfacts.2.1 c (hpv ▸ hc), hpv ▸ hfacts.2.2⟩

/-- Every `parse_qs` entry carries at least one value. -/
theorem parse_qs_vals_ne_nil (q0 : Str) :
    ∀ kv ∈ parse_qs q0, kv.2 ≠ [] := by
  intro kv hkv
  obtain ⟨hk, -, hv⟩ := foldl_addPair_spec (parse_qsl q0)
  have hmem : kv.1 ∈ ((parse_qsl q0).foldl addPair []).map Prod.fst :=
    List.mem_map.mpr ⟨kv, hkv, rfl⟩
  rcases List.mem_map.mp ((hk kv.1).mp hmem) with ⟨p, hp, hpk⟩
  have hpf : p ∈ (parse_qsl q0).filter (fun kv2 => kv2.1 = kv.1) :=
    List.mem_filter.mpr ⟨hp, by simpa using hpk⟩
  rw [hv kv.1 kv.2 hkv]
  exact List.ne_nil_of_mem (List.mem_map.mpr ⟨p, hpf, rfl⟩)

/-- Requote stability: filtering and re-encoding the lower-cased re-encoded
query changes nothing (on a `%`-free `queryChar` query). -/
theorem filteredParams_requote {q0 : Str}
    (hq : ∀ c ∈ q0, queryChar c = true) :
    filteredParams (pyLower (urlencode (filteredParams q0))) =
      filteredParams q0 := by
  obtain ⟨-, hn, -⟩ := foldl_addPair_spec (parse_qsl q0)
  have hGsub : ∀ kv ∈ filteredParams q0, kv ∈ parse_qs q0 :=
    fun kv hkv => (List.mem_filter.mp hkv).1
  have hGpred : ∀ kv ∈ filteredParams q0,
      (¬ trackingParams.contains (pyLower kv.1) : Bool) = true :=
    fun kv hkv => (List.mem_filter.mp hkv).2
  have hGnodup : ((filteredParams q0).map Prod.fst).Nodup := by
    unfold filteredParams
    rw [map_fst_filter_key (fun k => ¬ trackingParams.contains (pyLower k))
      (parse_qs q0)]
    exact hn.filter _
  have hflat : ∀ kv ∈ flattenPairs (filteredParams q0),
      (∀ c ∈ kv.1, dChar c = true) ∧ (∀ c ∈ kv.2, dChar c = true) ∧
        kv.2 ≠ [] := by
    intro kv hkv
    rcases List.mem_flatten.mp hkv with ⟨l, hl, hkvl⟩
    rcases List.mem_map.mp hl with ⟨g, hg, rfl⟩
    rcases List.mem_map.mp hkvl with ⟨v, hvg, rfl⟩
    have hfacts := parse_qs_entry_chars hq g (hGsub g hg)
    exact ⟨hfacts.1, (hfacts.2 v hvg).1, (hfacts.2 v hvg).2⟩
  have hqs : parse_qs (pyLower (urlencode (filteredParams q0))) =
      filteredParams q0 := by
    rw [urlencode_eq_flat, parse_qs,
      parse_qsl_encodeFlat (flattenPairs (filteredParams q0)) hflat,
      foldl_addPair_flatten (filteredParams q0) [] (by simp) hGnodup
        (fun kv hkv => parse_qs_vals_ne_nil q0 kv (hGsub kv hkv))]
    simp
  rw [show filteredParams (pyLower (urlencode (filteredParams q0))) =
      (parse_qs (pyLower (urlencode (filteredParams q0)))).filter
        (fun kv => ¬ trackingParams.contains (pyLower kv.1)) from rfl,
    hqs]
  exact List.filter_eq_self.mpr hGpred


/-! ## C9: the second normalization pass -/

theorem pyIsSpace_false_of_gt32 {c : Char} (h : 32 < c.toNat) :
    pyIsSpace c = false := by
  simp only [pyIsSpace, decide_eq_false_iff_not]
  rintro (rfl | rfl | rfl | rfl | rfl | rfl) <;> exact absurd h (by decide)

theorem pyStrip_of_gt32 {s : Str} (h : ∀ c ∈ s, 32 < c.toNat) :
    pyStrip s = s := by
  rw [pyStrip,
    dropWhile_all_false (fun c hc => pyIsSpace_false_of_gt32 (h c hc)),
    rstripP_all_false (fun c hc => pyIsSpace_false_of_gt32 (h c hc))]

/-- Lower-casing preserves parse-tameness of a query character. -/
theorem qParseOK_pyCharLower {c : Char} (h : qParseOK c = true) :
    qParseOK (pyCharLower c) = true := by
  simp only [qParseOK, Bool.and_eq_true, decide_eq_true_eq] at h ⊢
  rcases pyCharLower_cases c with hc | hc
  · rw [hc]; exact h
  · exact ⟨by omega, by omega⟩

/-- Lower-casing a well-formed `mkUrl` only lower-cases its query. -/
theorem pyLower_mkUrl (host path : Str) (q : Option Str)
    (hhc : ∀ c ∈ host, hostChar c = true)
    (hpc : ∀ c ∈ path, pathChar c = true) :
    pyLower (mkUrl host path q) = mkUrl host path (q.map pyLower) := by
  rw [mkUrl.eq_def, mkUrl.eq_def, pyLower_append, pyLower_append,
    pyLower_append,
    show pyLower "http://".toList = "http://".toList from rfl,
    pyLower_eq_self (fun c hc => (hostChar_spec (hhc c hc)).2.1),
    pyLower_eq_self (fun c hc => (pathChar_spec (hpc c hc)).2.1)]
  congr 1
  cases q with
  | none => rfl
  | some qs =>
    show pyLower ('?' :: qs) = '?' :: pyLower qs
    rw [pyLower_cons, show pyCharLower '?' = '?' from by decide]

theorem rstripSlash_idem (s : Str) :
    rstripSlash (rstripSlash s) = rstripSlash s :=
  rstripP_idem _ s

/-- The reassembly step of `normalize_url` on an `http` parse with
non-empty host, no params and no fragment. -/
theorem urlunparse_http (host p nq : Str) (hh : host ≠ [])
    (hp : p = [] ∨ p.take 1 = ['/']) :
    urlunparse "http".toList host p [] nq [] =
      mkUrl host p (if nq = [] then none else some nq) := by
  have hne0 : ¬ (([] : Str) ≠ []) := by simp
  have hinner : ¬ (p ≠ [] ∧ p.take 1 ≠ ['/']) := by
    rcases hp with hp | hp
    · intro hc; exact hc.1 hp
    · intro hc; exact hc.2 hp
  rw [urlunparse]
  rw [if_neg hne0, urlunsplit]
  rw [if_neg hne0, if_pos (Or.inl hh : host ≠ [] ∨ p.take 2 = ['/', '/']),
    if_neg hinner, if_pos (by decide : ("http".toList : Str) ≠ [])]
  by_cases hnq : nq = []
  · subst hnq
    rw [if_neg hne0, if_pos rfl, mkUrl.eq_def]
    simp only [List.append_assoc, List.cons_append, List.nil_append,
      List.append_nil]
    rfl
  · rw [if_pos hnq, if_neg (fun hc => hnq hc), mkUrl.eq_def]
    simp only [List.append_assoc, List.cons_append, List.nil_append]
    rfl

/-- `normalize_url` on a well-formed `http://host/path?query` URL: the path
loses its trailing slashes and the query is filtered and re-encoded (from
its lower-casing; the host, path and scheme are already lower-case). -/
theorem normalize_mkUrl (host path : Str) (q : Option Str)
    (hh : host ≠ [])
    (hhc : ∀ c ∈ host, hostChar c = true)
    (hpc : ∀ c ∈ path, pathChar c = true)
    (hp0 : path = [] ∨ path.take 1 = ['/'])
    (hqc : ∀ qs, q = some qs → ∀ c ∈ qs, qParseOK c = true) :
    normalize_url (mkUrl host path q) =
      mkUrl host (rstripSlash path)
        (if urlencode (filteredParams (pyLower (q.getD []))) = []
         then none
         else some (urlencode (filteredParams (pyLower (q.getD []))))) := by
  have hqc' : ∀ qs, q.map pyLower = some qs → ∀ c ∈ qs, qParseOK c = true := by
    intro qs hqs c hc
    cases q with
    | none => simp at hqs
    | some q1 =>
      have hq1 : pyLower q1 = qs := by simpa using hqs
      subst hq1
      rcases List.mem_map.mp hc with ⟨y, hy, rfl⟩
      exact qParseOK_pyCharLower (hqc q1 rfl y hy)
  have hgetd : (q.map pyLower).getD [] = pyLower (q.getD []) := by
    cases q <;> rfl
  have hrp : rstripSlash path = [] ∨ (rstripSlash path).take 1 = ['/'] := by
    rcases hp0 with hp | hp
    · subst hp; left; rfl
    · exact rstripP_take_one hp
  unfold normalize_url
  rw [pyLower_mkUrl host path q hhc hpc,
    pyStrip_of_gt32 (mkUrl_gt32 hhc hpc hqc'),
    urlparse_mkUrl host path (q.map pyLower) hhc hpc hp0 hqc']
  show urlunparse "http".toList host (rstripSlash path) []
      (urlencode (filteredParams ((q.map pyLower).getD []))) [] = _
  rw [hgetd, urlunparse_http host (rstripSlash path) _ hh hrp]

/-- C9 (amended): `normalize_url` is idempotent on well-formed
`http://host/path?query` URLs — non-empty lower-case host, absolute (or
empty) lower-case path, and a percent-free lower-case query — but not on
arbitrary URLs: a percent-escape decoded by the first pass is lower-cased
by the second pass, so the counterexample `http://x.com/?q=%41` normalizes
to `http://x.com?q=A` and then to `http://x.com?q=a`. -/
theorem C9_amended_idempotent_on_wf (host path : Str) (q : Option Str)
    (hh : host ≠ [])
    (hhc : ∀ c ∈ host, hostChar c = true)
    (hpc : ∀ c ∈ path, pathChar c = true)
    (hp0 : path = [] ∨ path.take 1 = ['/'])
    (hqc : ∀ qs, q = some qs → ∀ c ∈ qs, queryChar c = true) :
    normalize_url (normalize_url (mkUrl host path q)) =
      normalize_url (mkUrl host path q) := by
  have hq0 : ∀ c ∈ q.getD [], queryChar c = true := by
    cases q with
    | none => intro c hc; simp at hc
    | some qs => exact hqc qs rfl
  have hql : pyLower (q.getD []) = q.getD [] :=
    pyLower_eq_self (fun c hc => (queryChar_spec (hq0 c hc)).2.1)
  have hqc1 : ∀ qs, q = some qs → ∀ c ∈ qs, qParseOK c = true :=
    fun qs hqs c hc => (queryChar_spec (hqc qs hqs c hc)).1
  have hpc' : ∀ c ∈ rstripSlash path, pathChar c = true :=
    fun c hc => hpc c (mem_rstripP hc)
  have hrp : rstripSlash path = [] ∨ (rstripSlash path).take 1 = ['/'] := by
    rcases hp0 with hp | hp
    · subst hp; left; rfl
    · exact rstripP_take_one hp
  have h1 := normalize_mkUrl host path q hh hhc hpc hp0 hqc1
  rw [hql] at h1
  by_cases he : urlencode (filteredParams (q.getD [])) = []
  · rw [if_pos he] at h1
    rw [h1, normalize_mkUrl host (rstripSlash path) none hh hhc hpc' hrp
        (fun qs hqs => by simp at hqs),
      rstripSlash_idem,
      if_pos (by decide :
        urlencode (filteredParams (pyLower ((none : Option Str).getD []))) = [])]
  · rw [if_neg he] at h1
    have hqok : ∀ qs2,
        (some (urlencode (filteredParams (q.getD []))) : Option Str) =
          some qs2 → ∀ c ∈ qs2, qParseOK c = true := by
      intro qs2 hqs2 c hc
      cases Option.some.inj hqs2
      exact urlencode_qParseOK _ c hc
    rw [h1, normalize_mkUrl host (rstripSlash path)
        (some (urlencode (filteredParams (q.getD [])))) hh hhc hpc' hrp hqok,
      rstripSlash_idem, Option.getD_some, filteredParams_requote hq0,
      if_neg he]

/-- C9 counterexample: `normalize_url` is not idempotent on all strings.
The first pass decodes `%41` to `A` (`http://x.com?q=A`); the second pass
lower-cases it to `a` (`http://x.com?q=a`). -/
theorem C9_counterexample :
    normalize_url (normalize_url "http://x.com/?q=%41".toList) ≠
      normalize_url "http://x.com/?q=%41".toList := by
  decide

/-- Witness for C9 amended: the URL `http://x.com/a?b=2&utm_source=z` is in
the well-formed class and normalizing it twice equals normalizing it
once. -/
theorem C9_witness :
    ("x.com".toList : Str) ≠ [] ∧
    normalize_url (normalize_url (mkUrl "x.com".toList "/a".toList
        (some "b=2&utm_source=z".toList))) =
      normalize_url (mkUrl "x.com".toList "/a".toList
        (some "b=2&utm_source=z".toList)) :=
  ⟨by decide,
   C9_amended_idempotent_on_wf "x.com".toList "/a".toList
     (some "b=2&utm_source=z".toList)
     (by decide) (by decide) (by decide) (by decide)
     (fun qs hqs => by
       cases Option.some.inj hqs
       decide)⟩

end NewsTrack
